import Mathlib

/-!
Verification development for the ObjectKV segment file format (writer and
reader) and the snapshot reader.  The Go sources are embedded shallowly:

* byte strings are `List Nat` (each element a byte value),
* Go `uint64`/`uint16` arithmetic is `Nat` arithmetic reduced `% 2 ^ 64`
  (resp. `% 2 ^ 16`) exactly where the source performs machine arithmetic,
* fallible functions return `Except`-style sum types, with a dedicated
  constructor for Go panics,
* the `bytes.Reader`/`bytes.Buffer` read semantics of the source's
  `readBytes`/`mustReadBytes` helpers are modelled exactly (short reads and
  reads at end-of-input fail, and `mustReadBytes` turns that into a panic).
-/

namespace ObjectKV

/-- Byte strings (Go `[]byte` contents; `nil`-ness is modelled separately as
`Option Bytes` at the places where the source distinguishes a nil slice). -/
abbrev Bytes := List Nat

/-- Go `bytes.Compare`: lexicographic comparison of byte strings.  Only the
sign of the Go result matters, so an `Ordering` is returned. -/
def bcmp : Bytes → Bytes → Ordering
  | [], [] => .eq
  | [], _ :: _ => .lt
  | _ :: _, [] => .gt
  | a :: as, b :: bs =>
    if a < b then .lt else if b < a then .gt else bcmp as bs

/-- Go `bytes.Equal` on byte contents (content equality). -/
def bequal (a b : Bytes) : Bool := a == b

/-- Little-endian encoding of `n` on `w` bytes, as produced by Go
`binary.LittleEndian.PutUint16/32/64` (the value is truncated mod `2^(8*w)`). -/
def putUintLE : Nat → Nat → Bytes
  | 0, _ => []
  | w + 1, n => (n % 256) :: putUintLE w (n / 256)

/-- Little-endian value of a byte string, as read by Go
`binary.LittleEndian.Uint16/32/64` from a chunk of exactly the right width. -/
def leVal : Bytes → Nat
  | [] => 0
  | b :: bs => b + 256 * leVal bs

/-- Go conversion `int(u)` / `int64(u)` of a `uint64` value: wraps to a
negative number for values `≥ 2^63`. -/
def goInt64OfUint64 (u : Nat) : Int :=
  if u < 2 ^ 63 then (u : Int) else (u : Int) - 2 ^ 64

/-! ## xxhash64

The repository hashes blocks and the meta block with `xxhash.Sum64`
(cespare/xxhash, the reference XXH64 algorithm with seed 0).  The algorithm
is reproduced here over `Bytes`; all arithmetic is mod `2^64`. -/

namespace XXH64

def prime1 : Nat := 0x9E3779B185EBCA87
def prime2 : Nat := 0xC2B2AE3D27D4EB4F
def prime3 : Nat := 0x165667B19E3779F9
def prime4 : Nat := 0x85EBCA77C2B2AE63
def prime5 : Nat := 0x27D4EB2F165667C5

/-- 64-bit modulus. -/
def M64 : Nat := 2 ^ 64

/-- 64-bit rotate left (operand assumed `< 2^64`). -/
def rotl (x r : Nat) : Nat := (x * 2 ^ r + x / 2 ^ (64 - r)) % M64

/-- The XXH64 accumulator round. -/
def xround (acc lane : Nat) : Nat := rotl ((acc + lane * prime2) % M64) 31 * prime1 % M64

/-- The XXH64 merge round used after the stripe loop. -/
def mergeRound (h v : Nat) : Nat := ((Nat.xor h (xround 0 v)) * prime1 + prime4) % M64

/-- Little-endian 64-bit lane from the first 8 bytes of `l`. -/
def lane64 (l : Bytes) : Nat := leVal (l.take 8)

/-- Little-endian 32-bit lane from the first 4 bytes of `l`. -/
def lane32 (l : Bytes) : Nat := leVal (l.take 4)

/-- The 32-byte stripe loop: consumes stripes while at least 32 bytes
remain, returning the four accumulators and the remaining input.  The first
argument is fuel (structural recursion so the kernel can evaluate it); the
input length is always enough fuel, since every step consumes 32 bytes. -/
def stripes : Nat → Bytes → Nat → Nat → Nat → Nat → Nat × Nat × Nat × Nat × Bytes
  | 0, l, v1, v2, v3, v4 => (v1, v2, v3, v4, l)
  | fuel + 1, l, v1, v2, v3, v4 =>
    if 32 ≤ l.length then
      stripes fuel (l.drop 32)
        (xround v1 (lane64 l))
        (xround v2 (lane64 (l.drop 8)))
        (xround v3 (lane64 (l.drop 16)))
        (xround v4 (lane64 (l.drop 24)))
    else
      (v1, v2, v3, v4, l)

/-- The 8-byte tail loop (fuel-based like `stripes`). -/
def tail8 : Nat → Nat → Bytes → Nat × Bytes
  | 0, h, l => (h, l)
  | fuel + 1, h, l =>
    if 8 ≤ l.length then
      tail8 fuel ((rotl (Nat.xor h (xround 0 (lane64 l))) 27 * prime1 + prime4) % M64) (l.drop 8)
    else
      (h, l)

/-- The final per-byte loop. -/
def tail1 (h : Nat) : Bytes → Nat
  | [] => h
  | b :: bs => tail1 (rotl (Nat.xor h (b * prime5 % M64)) 11 * prime1 % M64) bs

/-- The final avalanche. -/
def avalanche (h : Nat) : Nat :=
  let h := Nat.xor h (h / 2 ^ 33) % M64
  let h := h * prime2 % M64
  let h := Nat.xor h (h / 2 ^ 29) % M64
  let h := h * prime3 % M64
  Nat.xor h (h / 2 ^ 32) % M64

/-- `xxhash.Sum64` (seed 0). -/
def sum64 (data : Bytes) : Nat :=
  let n := data.length
  let (h, rest) :=
    if 32 ≤ n then
      let (v1, v2, v3, v4, rest) :=
        stripes n data ((prime1 + prime2) % M64) prime2 0 (M64 - prime1)
      let h := (rotl v1 1 + rotl v2 7 + rotl v3 12 + rotl v4 18) % M64
      let h := mergeRound h v1
      let h := mergeRound h v2
      let h := mergeRound h v3
      (mergeRound h v4, rest)
    else
      (prime5, data)
  let h := (h + n) % M64
  let (h, rest) := tail8 rest.length h rest
  let h :=
    if 4 ≤ rest.length then (rotl (Nat.xor h (lane32 rest * prime1 % M64)) 23 * prime2 + prime3) % M64
    else h
  let rest := if 4 ≤ rest.length then rest.drop 4 else rest
  avalanche (tail1 h rest)

end XXH64

/-! ## Segment writer (src/sst/segment_writer.go, with the `blockStat`
record of SEGMENT.md / the writer's own `toBytes`)

The ZSTD compression path streams rows through the external
`klauspost/compress/zstd` encoder, which is not part of this repository and
is not modelled; runs that enable ZSTD are mapped to a dedicated
`zstdUnmodeled` outcome, and every theorem below restricts to configurations
with `ZSTDCompressionLevel = 0` (the `LZ4Compression` flag is faithfully
modelled: the source only tags the segment, it performs no LZ4 compression).
The bloom filter is carried as its serialized bytes (`WriteTo` output);
`BloomFilter.Add` mutates only the filter's internal state, which the claims
never inspect, so it is not tracked. -/

/-- Writer options (`SegmentWriterOptions`): compression settings, optional
bloom filter (as its serialized bytes), block threshold and alignment. -/
structure SegmentWriterOptions where
  ZSTDCompressionLevel : Nat
  LZ4Compression : Bool
  BloomFilter : Option Bytes
  DataBlockThresholdBytes : Nat
  DataBlockSize : Nat
deriving DecidableEq

/-- Writer-side per-block statistic (`blockStat`). All numeric fields are
`uint64` values (kept `< 2^64` by construction). -/
structure blockStat where
  offset : Nat
  finalBytes : Nat
  rawBytes : Nat
  compressedBytes : Nat
  hash : Nat
  firstKey : Bytes
deriving DecidableEq

instance : Inhabited blockStat := ⟨⟨0, 0, 0, 0, 0, []⟩⟩

/-- `blockStat.toBytes`: key length (u16 LE), key, then offset, final size,
raw size, compressed size, hash (all u64 LE). -/
def blockStat.toBytes (bs : blockStat) : Bytes :=
  putUintLE 2 bs.firstKey.length ++ bs.firstKey ++
    putUintLE 8 bs.offset ++ putUintLE 8 bs.finalBytes ++ putUintLE 8 bs.rawBytes ++
    putUintLE 8 bs.compressedBytes ++ putUintLE 8 bs.hash

/-- The mutable state of `SegmentWriter`.  `blockWriterActive` models
`s.blockWriter != nil`; `externalBytes` accumulates everything written to the
external sink. -/
structure SegmentWriter where
  currentRawBlockSize : Nat
  currentBlockStartKey : Bytes
  blockBuffer : Bytes
  blockWriterActive : Bool
  externalBytes : Bytes
  currentByteOffset : Nat
  blockIndex : List blockStat
  lastKey : Bytes
  options : SegmentWriterOptions
  closed : Bool
deriving DecidableEq

/-- `NewSegmentWriter`. -/
def NewSegmentWriter (opts : SegmentWriterOptions) : SegmentWriter :=
  ⟨0, [], [], false, [], 0, [], [], opts, false⟩

/-- Write-path outcomes.  `divByZeroPanic` is the Go runtime panic on
`% 0` when `DataBlockSize = 0`; `zstdUnmodeled` marks configurations using
the external ZSTD encoder, which this embedding does not cover. -/
inductive WriteErr where
  | keyTooLarge
  | valueTooLarge
  | writerClosed
  | noRows
  | divByZeroPanic
  | zstdUnmodeled
deriving DecidableEq

/-- The on-disk encoding of one row: key length (u16 LE), value length
(u32 LE), key bytes, value bytes. -/
def encodeRecord (key val : Bytes) : Bytes :=
  putUintLE 2 key.length ++ putUintLE 4 val.length ++ key ++ val

/-- `flushCurrentDataBlock`: record the block stat, pad the buffered block to
the next alignment multiple, hash it, append it to the external sink, and
reset the per-block state. -/
def flushCurrentDataBlock (s : SegmentWriter) : Except WriteErr SegmentWriter :=
  if s.options.ZSTDCompressionLevel > 0 then .error .zstdUnmodeled
  else if s.options.DataBlockSize = 0 then .error .divByZeroPanic
  else
    let useLZ4 := s.options.LZ4Compression
    let stat0 : blockStat :=
      { offset := s.currentByteOffset, rawBytes := s.currentRawBlockSize,
        firstKey := s.currentBlockStartKey, finalBytes := 0, hash := 0,
        compressedBytes := if useLZ4 then s.blockBuffer.length % 2 ^ 64 else 0 }
    let remainder := (s.options.DataBlockSize - s.blockBuffer.length % s.options.DataBlockSize) % 2 ^ 64
    let blockBytes := if remainder > 0 then s.blockBuffer ++ List.replicate remainder 0 else s.blockBuffer
    let stat : blockStat :=
      { stat0 with finalBytes := blockBytes.length % 2 ^ 64, hash := XXH64.sum64 blockBytes }
    .ok { s with
      blockIndex := s.blockIndex ++ [stat],
      externalBytes := s.externalBytes ++ blockBytes,
      blockBuffer := blockBytes,
      blockWriterActive := false,
      currentByteOffset := (s.currentByteOffset + blockBytes.length) % 2 ^ 64 }

/-- `SegmentWriter.WriteRow`: size-limit checks, closed check, lazy block
start, record append, threshold-triggered flush.  There is no empty-key
check in the source. -/
def WriteRow (s : SegmentWriter) (key val : Bytes) : Except WriteErr SegmentWriter :=
  if key.length > 65535 then .error .keyTooLarge
  else if val.length > 4294967295 then .error .valueTooLarge
  else if s.closed then .error .writerClosed
  else if s.options.ZSTDCompressionLevel > 0 then .error .zstdUnmodeled
  else
    let s :=
      if !s.blockWriterActive then
        { s with currentBlockStartKey := key, currentRawBlockSize := 0,
                 blockBuffer := [], blockWriterActive := true }
      else s
    let rowBuf := encodeRecord key val
    let s := { s with lastKey := key, blockBuffer := s.blockBuffer ++ rowBuf,
                      currentRawBlockSize := (s.currentRawBlockSize + rowBuf.length) % 2 ^ 64 }
    if s.blockBuffer.length ≥ s.options.DataBlockThresholdBytes then
      flushCurrentDataBlock s
    else
      .ok s

/-- `generateMetaBlock`: first key (of the first block stat), last key, bloom
filter block, compression byte, simple-index marker, entry count, and the
serialized block stats. -/
def generateMetaBlock (s : SegmentWriter) : Bytes :=
  let firstKey := (s.blockIndex.headD default).firstKey
  let keyPart := putUintLE 2 firstKey.length ++ firstKey ++
    putUintLE 2 s.lastKey.length ++ s.lastKey
  let bloomPart :=
    match s.options.BloomFilter with
    | some bb => 1 :: (putUintLE 8 bb.length ++ bb)
    | none => [0]
  let useZSTD := s.options.ZSTDCompressionLevel > 0
  let useLZ4 := !useZSTD && s.options.LZ4Compression
  let compressionPart := if useZSTD then [1] else if useLZ4 then [2] else [0]
  keyPart ++ bloomPart ++ compressionPart ++ [0] ++
    putUintLE 8 s.blockIndex.length ++ (s.blockIndex.map blockStat.toBytes).flatten

/-- `SegmentWriter.Close`: flush any open block, require at least one block,
write the meta block, then the 17-byte trailer.  NOTE (faithfully modelled):
the source advances `currentByteOffset` past the meta block *before*
capturing `metaBlockStartOffset`, so the offset written into the trailer is
the end of the meta block, not its start.  Returns (total file length, meta
block bytes, final writer state). -/
def Close (s : SegmentWriter) : Except WriteErr (Nat × Bytes × SegmentWriter) := do
  let s ← if s.blockWriterActive then flushCurrentDataBlock s else .ok s
  if s.blockIndex = [] then
    .error .noRows
  else
    let metaBlockBytes := generateMetaBlock s
    let s := { s with externalBytes := s.externalBytes ++ metaBlockBytes,
                      currentByteOffset := (s.currentByteOffset + metaBlockBytes.length) % 2 ^ 64 }
    let metaBlockStartOffset := s.currentByteOffset
    let s := { s with externalBytes := s.externalBytes ++ putUintLE 8 metaBlockStartOffset,
                      currentByteOffset := (s.currentByteOffset + 8) % 2 ^ 64 }
    let s := { s with externalBytes := s.externalBytes ++ putUintLE 8 (XXH64.sum64 metaBlockBytes),
                      currentByteOffset := (s.currentByteOffset + 8) % 2 ^ 64 }
    let s := { s with externalBytes := s.externalBytes ++ [1],
                      currentByteOffset := (s.currentByteOffset + 1) % 2 ^ 64 }
    let s := { s with closed := true }
    .ok (s.currentByteOffset, metaBlockBytes, s)

/-! ## Segment reader, metadata parsing (SegmentReader of the sst package)

`readBytes` reads from a `bytes.Reader`: at end of input `Read` returns
`io.EOF` (even for a zero-length request), and a short read trips the
`ErrUnexpectedBytesRead` check; in both cases `mustReadBytes` panics.  The
parse state is the remaining input. -/

/-- Result of a `mustReadBytes`-style step: the Go panic, or the bytes read
together with the remaining input. -/
inductive PRes (α : Type) where
  | panic
  | ok (a : α) (rest : Bytes)
deriving DecidableEq

/-- Sequencing of parse steps. -/
def PRes.bind : PRes α → (α → Bytes → PRes β) → PRes β
  | .panic, _ => .panic
  | .ok a rest, f => f a rest

/-- `mustReadBytes(reader, n)` over the remaining input `rem`: panics at end
of input or on a short read, otherwise yields exactly `n` bytes. -/
def mustReadBytes (rem : Bytes) (n : Nat) : PRes Bytes :=
  if rem = [] then .panic
  else if n ≤ rem.length then .ok (rem.take n) (rem.drop n)
  else .panic

/-- Reader-side block statistic (`BlockStat`). -/
structure BlockStat where
  FirstKey : Bytes
  Offset : Nat
  BlockSize : Nat
  OriginalSize : Nat
  CompressedSize : Nat
  Hash : Nat
deriving DecidableEq

instance : Inhabited BlockStat := ⟨⟨[], 0, 0, 0, 0, 0⟩⟩

/-- `btree.ReplaceOrInsert` into the reader's block index, whose ordering is
`bytes.Compare(a.FirstKey, b.FirstKey) == -1`; an entry with an equal first
key is replaced.  The btree is represented by its ascending item list. -/
def statInsert (st : BlockStat) : List BlockStat → List BlockStat
  | [] => [st]
  | x :: xs =>
    match bcmp st.FirstKey x.FirstKey with
    | .lt => st :: x :: xs
    | .eq => st :: xs
    | .gt => x :: statInsert st xs

/-- Parsed `SegmentMetadata`.  The bloom filter is kept as the raw bytes fed
to `bloom.BloomFilter.ReadFrom` (an external library, modelled as accepting
any input); `BlockIndex` is the btree's ascending item list. -/
structure SegmentMetadata where
  BloomFilter : Option Bytes
  ZSTDCompression : Bool
  LZ4Compression : Bool
  FirstKey : Bytes
  LastKey : Bytes
  BlockIndex : List BlockStat
deriving DecidableEq

/-- Result of a metadata parse: a Go panic, the `ErrInvalidMetaBlock` error,
or the parsed metadata. -/
inductive MetaRes where
  | panic
  | invalidMetaBlock
  | ok (m : SegmentMetadata)
deriving DecidableEq

/-- The body of `parseBlockIndex`'s entry loop (`numEntries` iterations of
seven `mustReadBytes` calls followed by a `ReplaceOrInsert`). -/
def parseStats (t : List BlockStat) : Nat → Bytes → PRes (List BlockStat)
  | 0, rem => .ok t rem
  | n + 1, rem =>
    (mustReadBytes rem 2).bind fun klBytes rem =>
    (mustReadBytes rem (leVal klBytes)).bind fun fk rem =>
    (mustReadBytes rem 8).bind fun off rem =>
    (mustReadBytes rem 8).bind fun bsz rem =>
    (mustReadBytes rem 8).bind fun osz rem =>
    (mustReadBytes rem 8).bind fun csz rem =>
    (mustReadBytes rem 8).bind fun hsh rem =>
      parseStats (statInsert ⟨fk, leVal off, leVal bsz, leVal osz, leVal csz, leVal hsh⟩ t)
        n rem

/-- `parseBlockIndex`: skip the index-kind byte, read the `uint64` entry
count, reject a zero count with `ErrInvalidMetaBlock`, then parse the
entries.  The count is converted to a Go `int`, so a count `≥ 2^63` wraps
negative and the entry loop does not run. -/
def parseBlockIndex (rem : Bytes) : MetaRes ⊕ (List BlockStat × Bytes) :=
  match (mustReadBytes rem 1).bind fun _ rem => mustReadBytes rem 8 with
  | .panic => .inl .panic
  | .ok cnt rem =>
    if goInt64OfUint64 (leVal cnt) = 0 then .inl .invalidMetaBlock
    else
      match parseStats [] (goInt64OfUint64 (leVal cnt)).toNat rem with
      | .panic => .inl .panic
      | .ok t rem => .inr (t, rem)

/-- `parseBloomFilterBlock`: presence byte, then (if `1`) the `uint64` filter
length and the filter bytes.  A length `≥ 2^63` wraps negative in the Go
`int` conversion and `make` panics.  `bloom.BloomFilter.ReadFrom` is external
library code, modelled as succeeding on any bytes. -/
def parseBloomFilterBlock (rem : Bytes) : PRes (Option Bytes) :=
  (mustReadBytes rem 1).bind fun en rem =>
    if en.headD 0 = 1 then
      (mustReadBytes rem 8).bind fun bl rem =>
        if leVal bl ≥ 2 ^ 63 then .panic
        else (mustReadBytes rem (leVal bl)).bind fun bb rem => .ok (some bb) rem
    else .ok none rem

/-- `SegmentReader.BytesToMetadata`: first key, last key, bloom filter block,
compression byte, block index. -/
def BytesToMetadata (metaBlockBytes : Bytes) : MetaRes :=
  match
    (mustReadBytes metaBlockBytes 2).bind fun fkl rem =>
    (mustReadBytes rem (leVal fkl)).bind fun fk rem =>
    (mustReadBytes rem 2).bind fun lkl rem =>
    (mustReadBytes rem (leVal lkl)).bind fun lk rem => .ok (fk, lk) rem
  with
  | .panic => .panic
  | .ok (fk, lk) rem =>
    match parseBloomFilterBlock rem with
    | .panic => .panic
    | .ok bloom rem =>
      match mustReadBytes rem 1 with
      | .panic => .panic
      | .ok cb rem =>
        let zstd := cb.headD 0 = 1
        let lz4 := cb.headD 0 = 2
        match parseBlockIndex rem with
        | .inl r => r
        | .inr (t, _) => .ok ⟨bloom, zstd, lz4, fk, lk, t⟩

/-- Result of `FetchAndLoadMetadata`. -/
inductive FetchRes where
  | panic
  | errSeek
  | errRead
  | errUnknownSegmentVersion
  | errMismatchedMetaBlockHash
  | errInvalidMetaBlock
  | ok (m : SegmentMetadata)
deriving DecidableEq

/-- `SegmentReader.FetchAndLoadMetadata` on a file image of `fileBytes.length`
bytes: seek to the last 17 bytes, check the version byte, read the meta block
offset and hash, re-read the meta block (`fileBytes - offset - 17` bytes from
`offset`; a short read is not detected by the source and leaves zero bytes),
verify the xxhash64, and parse.  `bytes.Reader.Seek` only fails on a negative
position. -/
def FetchAndLoadMetadata (file : Bytes) : FetchRes :=
  if file.length < 17 then .errSeek
  else
    let finalSegmentBytes := (file.drop (file.length - 17)).take 17
    let segmentVersion := finalSegmentBytes.getD 16 0
    if segmentVersion ≠ 1 then .errUnknownSegmentVersion
    else
      let metaBlockOffset := leVal (finalSegmentBytes.take 8)
      let metaBlockHash := leVal ((finalSegmentBytes.drop 8).take 8)
      if metaBlockOffset ≥ 2 ^ 63 then .errSeek
      else
        let bufLen : Int := (file.length : Int) - (metaBlockOffset : Int) - 17
        if bufLen < 0 then .panic
        else if metaBlockOffset ≥ file.length then .errRead
        else
          let avail := file.length - metaBlockOffset
          let metaBlockBytes :=
            ((file.drop metaBlockOffset).take bufLen.toNat) ++
              List.replicate (bufLen.toNat - avail) 0
          if XXH64.sum64 metaBlockBytes ≠ metaBlockHash then .errMismatchedMetaBlockHash
          else
            match BytesToMetadata metaBlockBytes with
            | .panic => .panic
            | .invalidMetaBlock => .errInvalidMetaBlock
            | .ok m => .ok m

/-! ## Decoded-segment layer

The row iterator and the snapshot reader never look inside block bytes: they
work through the block-index btree (keyed by block first key) and
`ReadBlockWithStat`, which decodes a block into its `[]KVPair`.  This layer
therefore represents a segment by its decoded blocks.  Every key and value
produced by the source's `ReadBlockWithStat` comes out of `mustReadBytes`,
i.e. out of Go `make([]byte, n)`, which is a non-nil slice even for `n = 0`;
a decoded row value is therefore always `some` bytes (possibly `some []`, an
L0 tombstone), never a Go nil slice. -/

/-- Comparison helpers over `bcmp` (signs of `bytes.Compare`). -/
def bLT (a b : Bytes) : Bool := bcmp a b = .lt

def bLE (a b : Bytes) : Bool := bcmp a b ≠ .gt

def bGT (a b : Bytes) : Bool := bcmp a b = .gt

def bGE (a b : Bytes) : Bool := bcmp a b ≠ .lt

/-- Bytes of a possibly-nil Go slice (`nil` reads as empty). -/
def gbytes (o : Option Bytes) : Bytes := o.getD []

/-- A decoded row (`sst.KVPair`).  `Value = none` models a Go nil slice,
which block decoding never produces. -/
structure KVPair where
  Key : Bytes
  Value : Option Bytes
deriving DecidableEq

instance : Inhabited KVPair := ⟨⟨[], none⟩⟩

/-- A block-index entry together with its decoded rows: the btree item
(keyed by `FirstKey`) fused with what `ReadBlockWithStat` returns for it. -/
structure BlockEntry where
  FirstKey : Bytes
  rows : List KVPair
deriving DecidableEq

instance : Inhabited BlockEntry := ⟨⟨[], []⟩⟩

/-- Decoded `SegmentMetadata`: the bloom filter is its membership test
(external library), `BlockIndex` is the btree's ascending item list. -/
structure SegMeta where
  BloomFilter : Option (Bytes → Bool)
  FirstKey : Bytes
  LastKey : Bytes
  BlockIndex : List BlockEntry

/-- `sst.DirectionAscending`. -/
def DirectionAscending : Nat := 0

/-- `sst.DirectionDescending`. -/
def DirectionDescending : Nat := 1

/-- Iteration with early stop, the shape of a `btree` iterator callback: the
callback updates a state and says whether to continue. -/
def iterStop (f : σ → α → σ × Bool) : σ → List α → σ
  | s, [] => s
  | s, x :: xs =>
    let (s', cont) := f s x
    if cont then iterStop f s' xs else s'

/-- `BlockIndex.DescendLessOrEqual(BlockStat{FirstKey: pivot}, f)`: the items
whose first key is `≤ pivot` under the index ordering, visited in descending
order. -/
def descendLEBlocks (idx : List BlockEntry) (pivot : Bytes)
    (f : σ → BlockEntry → σ × Bool) (init : σ) : σ :=
  iterStop f init ((idx.filter (fun e => !bLT pivot e.FirstKey)).reverse)

/-- `BlockIndex.AscendGreaterOrEqual(BlockStat{FirstKey: pivot}, f)`. -/
def ascendGEBlocks (idx : List BlockEntry) (pivot : Bytes)
    (f : σ → BlockEntry → σ × Bool) (init : σ) : σ :=
  iterStop f init (idx.filter (fun e => !bLT e.FirstKey pivot))

/-- The block lookup inside `SegmentReader.GetRow`: descend from the probe
key, keep the first block visited (the greatest block first key `≤ key`). -/
def getRowFindStat (idx : List BlockEntry) (key : Bytes) : Option BlockEntry :=
  descendLEBlocks idx key (fun _ e => (some e, false)) none

/-- `SegmentReader.GetRow` on a decoded segment: bloom probe (when a filter
is present), block lookup, then a linear scan of the block's rows for an
exact key match.  `none` is the `ErrNoRows` outcome. -/
def segGetRow (m : SegMeta) (key : Bytes) : Option KVPair :=
  let scan : Option KVPair :=
    match getRowFindStat m.BlockIndex key with
    | none => none
    | some e => e.rows.find? (fun p => bequal p.Key key)
  match m.BloomFilter with
  | some bf => if !bf key then none else scan
  | none => scan

/-! ## Row iterator (RowIter, the version with the `blockRowIdx ≥ 0` guard
and no `noMore` flag)

`statLastKey` is a nil-able Go slice (`none` models nil); `blockRows` is
nil-able as well.  `blockRowIdx` is a Go `int` (it takes the value `-1`
after `Seek(UnboundStart)` in descending mode).  The source's unused
`initialized` field is not carried. -/

/-- Reader handle state shared by an iterator (`SegmentReader`): its decoded
metadata and closed flag. -/
structure SegReader where
  metadata : SegMeta
  closed : Bool

/-- `sst.RowIter` state. -/
structure RowIter where
  statLastKey : Option Bytes
  blockRows : Option (List KVPair)
  blockRowIdx : Int
  s : SegReader
  direction : Nat

/-- Outcome of one `RowIter.Next` call. -/
inductive NextRes where
  | row (p : KVPair)
  | eof
  | closedErr
  | panic
deriving DecidableEq

/-- The next-block search of `RowIter.Next`, descending: skip entries whose
first key equals `statLastKey`, take the first other entry (the greatest
block first key strictly below `statLastKey`). -/
def nextStatDescend (idx : List BlockEntry) (statLastKey : Bytes) : Option BlockEntry :=
  descendLEBlocks idx statLastKey
    (fun st e => if bequal statLastKey e.FirstKey then (st, true) else (some e, false)) none

/-- The next-block search of `RowIter.Next`, ascending. -/
def nextStatAscend (idx : List BlockEntry) (statLastKey : Bytes) : Option BlockEntry :=
  ascendGEBlocks idx statLastKey
    (fun st e => if bequal statLastKey e.FirstKey then (st, true) else (some e, false)) none

/-- The descending-probe seeding at the head of `RowIter.Next`'s block
loading: on a fresh descending iterator (nil `statLastKey`, row index above
`-1`) the probe is seeded from the segment's last key. -/
def rowIterSeed (r : RowIter) : RowIter :=
  if r.direction = DirectionDescending ∧ r.statLastKey = none ∧ r.blockRowIdx > -1 then
    { r with statLastKey := some r.s.metadata.LastKey }
  else r

/-- The next-block search of `RowIter.Next` in the iterator's direction. -/
def rowIterFindNextStat (r : RowIter) : Option BlockEntry :=
  if r.direction = DirectionDescending then
    nextStatDescend r.s.metadata.BlockIndex (gbytes r.statLastKey)
  else
    nextStatAscend r.s.metadata.BlockIndex (gbytes r.statLastKey)

/-- The block-loading tail of `RowIter.Next`: seed the descending probe,
find the next block, load it (reversed in descending mode).  `.eof` is
`io.EOF`; `.panic` is the Go panic of `r.blockRows[0]` on an empty decoded
block. -/
def rowIterNextLoad (r : RowIter) : NextRes × RowIter :=
  let r := rowIterSeed r
  match rowIterFindNextStat r with
  | none => (.eof, r)
  | some e =>
    let rows := if r.direction = DirectionDescending then e.rows.reverse else e.rows
    match rows with
    | [] => (.panic, { r with statLastKey := some e.FirstKey })
    | p :: _ =>
      (.row p, { r with statLastKey := some e.FirstKey, blockRows := some rows, blockRowIdx := 1 })

/-- `RowIter.Next`: closed check; yield the current block row when one is
available (`blockRows != nil && 0 ≤ blockRowIdx < len`); otherwise load the
next block via `rowIterNextLoad`. -/
def rowIterNext (r : RowIter) : NextRes × RowIter :=
  if r.s.closed then (.closedErr, r)
  else
    match r.blockRows with
    | some rows =>
      if r.blockRowIdx < (rows.length : Int) ∧ 0 ≤ r.blockRowIdx then
        (.row (rows.getD r.blockRowIdx.toNat default), { r with blockRowIdx := r.blockRowIdx + 1 })
      else rowIterNextLoad r
    | none => rowIterNextLoad r

/-- Outcome of `RowIter.Seek`.  `.fuelOut` is an artifact of the bounded
catch-up loop in this embedding (never reached at the fuel used by the
concrete runs below). -/
inductive SeekRes where
  | ok
  | err
  | panic
  | fuelOut
deriving DecidableEq

/-- `btree.Min()` (Go returns the zero item on an empty tree). -/
def minBlock (idx : List BlockEntry) : BlockEntry := idx.headD default

/-- `btree.Max()`. -/
def maxBlock (idx : List BlockEntry) : BlockEntry := idx.getLastD default

/-- The block search of `RowIter.Seek`: record every visited item, keep
descending while `key ≤ item.FirstKey`. -/
def seekFindStat (idx : List BlockEntry) (key : Bytes) : Option BlockEntry :=
  descendLEBlocks idx key (fun _ e => (some e, bLE key e.FirstKey)) none

/-- The catch-up loop of `RowIter.Seek`: call `Next` until the returned key
satisfies the direction predicate against `key` (or `io.EOF`, which ends the
seek successfully). -/
def seekLoop (key : Bytes) : Nat → RowIter → (Option SeekRes) × RowIter
  | 0, r => (some .fuelOut, r)
  | fuel + 1, r =>
    match rowIterNext r with
    | (.eof, r') => (some .ok, r')
    | (.closedErr, r') => (some .err, r')
    | (.panic, r') => (some .panic, r')
    | (.row p, r') =>
      if r'.direction = DirectionDescending ∧ bLE p.Key key then (none, r')
      else if ¬ (r'.direction = DirectionDescending) ∧ bGE p.Key key then (none, r')
      else seekLoop key fuel r'

/-- `RowIter.Seek` (the `segment_row_iter` version with unbound-sentinel
handling): locate the candidate block, fall back to the first/last block
when none qualifies, load and orient it, then advance with `Next` until the
direction predicate holds and step the row index back by one.
`UnboundStart` is the nil/empty key, `UnboundEnd` is `[0xFF]`.  A read of
`rows[len(rows)-1]` on an empty decoded block is the Go panic. -/
def rowIterSeek (fuel : Nat) (r : RowIter) (key : Bytes) : SeekRes × RowIter :=
  let isUnboundStart := bequal key []
  let isUnboundEnd := bequal key [0xff]
  let stat0 : Option BlockEntry :=
    if isUnboundStart then some (minBlock r.s.metadata.BlockIndex)
    else if isUnboundEnd then some (maxBlock r.s.metadata.BlockIndex)
    else seekFindStat r.s.metadata.BlockIndex key
  let r := { r with blockRowIdx := 0 }
  let fallback : (Option SeekRes) × BlockEntry × RowIter :=
    match stat0 with
    | some e => (none, e, r)
    | none =>
      if r.direction = DirectionAscending then
        let firstBlock := minBlock r.s.metadata.BlockIndex
        if bLT key firstBlock.FirstKey then (none, firstBlock, r)
        else
          let lastBlock := maxBlock r.s.metadata.BlockIndex
          -- `rows` is still nil here in the source, so `len(rows) - 1 = -1`
          (none, lastBlock, { r with blockRowIdx := -1 })
      else
        let lastBlock := maxBlock r.s.metadata.BlockIndex
        let rows := lastBlock.rows
        match rows.getLast? with
        | none => (some .panic, lastBlock, r)
        | some lastRow =>
          if bGT key lastRow.Key then (none, lastBlock, r)
          else
            let firstBlock := minBlock r.s.metadata.BlockIndex
            (none, firstBlock, { r with blockRowIdx := (rows.length : Int) - 1 })
  match fallback with
  | (some res, _, r) => (res, r)
  | (none, stat, r) =>
    let r := { r with statLastKey := some stat.FirstKey }
    let rows := stat.rows
    let blockRows := if r.direction = DirectionDescending then rows.reverse else rows
    let r := { r with blockRows := some blockRows }
    let (res, r) :=
      if (¬ (r.direction = DirectionDescending) ∧ isUnboundEnd) ∨
         (r.direction = DirectionDescending ∧ isUnboundStart) then
        (none, { r with blockRowIdx := (blockRows.length : Int) })
      else
        match seekLoop key fuel r with
        | (some res, r) => (some res, r)
        | (none, r) => (none, { r with blockRowIdx := r.blockRowIdx - 1 })
    match res with
    | some res => (res, r)
    | none =>
      if isUnboundStart ∧ r.direction = DirectionDescending then
        (.ok, { r with blockRowIdx := -1 })
      else (.ok, r)

/-! ## Snapshot reader (snapshot_reader package) -/

/-- `SegmentRecord`: ID (a Go string, i.e. a byte string compared
bytewise), LSM level, decoded metadata. -/
structure SegmentRecord where
  ID : Bytes
  Level : Int
  Metadata : SegMeta

/-- `blockRangeLessFunc`: order by first key, then (nonempty before empty)
last key, then (nonempty before empty) ID; an empty last key or ID marks a
search probe and sorts last among equals. -/
def blockRangeLessFunc (a b : SegmentRecord) : Bool :=
  match bcmp a.Metadata.FirstKey b.Metadata.FirstKey with
  | .lt => true
  | .gt => false
  | .eq =>
    if a.Metadata.LastKey.length = 0 then false
    else if b.Metadata.LastKey.length = 0 then true
    else
      match bcmp a.Metadata.LastKey b.Metadata.LastKey with
      | .lt => true
      | .gt => false
      | .eq =>
        if a.ID = [] then false
        else if b.ID = [] then true
        else bLT a.ID b.ID

/-- `blockRangeTree.DescendLessOrEqual(pivot, f)` over the tree's ascending
item list. -/
def descendLESegs (tree : List SegmentRecord) (pivot : SegmentRecord)
    (f : σ → SegmentRecord → σ × Bool) (init : σ) : σ :=
  iterStop f init ((tree.filter (fun x => !blockRangeLessFunc pivot x)).reverse)

/-- The search probe `SegmentRecord{Metadata: sst.SegmentMetadata{FirstKey: key}}`
(all other fields zero). -/
def probeRecord (key : Bytes) : SegmentRecord :=
  ⟨[], 0, ⟨none, key, [], []⟩⟩

/-- `Reader.getPossibleSegmentsForKey`: descend from the probe, append every
record whose `[FirstKey, LastKey]` range contains the key, and stop at the
first visited record whose range does not. -/
def getPossibleSegmentsForKey (tree : List SegmentRecord) (key : Bytes) :
    List SegmentRecord :=
  descendLESegs tree (probeRecord key)
    (fun acc record =>
      let keyInRange := bGE key record.Metadata.FirstKey && bLE key record.Metadata.LastKey
      if keyInRange then (acc ++ [record], true) else (acc, false))
    []

/-- `Reader.getPossibleSegmentsForRange`: descend from a probe at `end`,
append every record overlapping `[start, end)` under
`!(start > last || end < first)`, and stop at the first visited record that
does not overlap. -/
def getPossibleSegmentsForRange (tree : List SegmentRecord) (start stop : Bytes) :
    List SegmentRecord :=
  descendLESegs tree (probeRecord stop)
    (fun acc record =>
      let keyInRange := !(bGT start record.Metadata.LastKey || bLT stop record.Metadata.FirstKey)
      if keyInRange then (acc ++ [record], true) else (acc, false))
    []

/-- The `sort.Slice` comparator of `Reader.GetRow`: level ascending, then ID
descending. -/
def getRowLess (a b : SegmentRecord) : Bool :=
  if a.Level ≠ b.Level then a.Level < b.Level else bGT a.ID b.ID

/-- Insertion of one element into a list sorted by a strict comparator. -/
def insertSorted (less : α → α → Bool) (x : α) : List α → List α
  | [] => [x]
  | y :: ys => if less x y then x :: y :: ys else y :: insertSorted less x ys

/-- `sort.Slice`.  Go's sort is unstable; for the comparators used here the
relevant records are totally ordered (IDs are pairwise distinct in the live
set), so every correct sort produces the same list, computed here by
insertion sort. -/
def sortSlice (less : α → α → Bool) (l : List α) : List α :=
  l.foldr (insertSorted less) []

/-- Outcome of `Reader.GetRow`: a row value (a possibly-empty byte slice) or
`sst.ErrNoRows`. -/
inductive GetRowRes where
  | ok (v : Option Bytes)
  | noRows
deriving DecidableEq

/-- The candidate loop of `Reader.GetRow`: open each candidate through the
reader factory (modelled as handing out a fresh reader on the record's
metadata), delegate to `SegmentReader.GetRow`, skip `ErrNoRows`; an empty
value found in a level-0 segment is a tombstone and answers `ErrNoRows`. -/
def getRowLoop (key : Bytes) : List SegmentRecord → GetRowRes
  | [] => .noRows
  | segment :: rest =>
    match segGetRow segment.Metadata key with
    | none => getRowLoop key rest
    | some row =>
      if bequal [] (gbytes row.Value) ∧ segment.Level = 0 then .noRows
      else .ok row.Value

/-- `Reader.GetRow`: candidates for the key, sorted by (level asc, ID desc),
then the candidate loop. -/
def GetRow (tree : List SegmentRecord) (key : Bytes) : GetRowRes :=
  getRowLoop key (sortSlice getRowLess (getPossibleSegmentsForKey tree key))

/-! ## Snapshot reader range scan (`Reader.GetRange`)

The `errgroup` tasks in the source are awaited inside each submission loop,
so setup and cursor advancement are sequential; they are modelled as such.
The `RowIter(direction)` constructor itself is absent from the sources (only
its callers are). Modelled from the spec: §4.3/§4.4 — "RowIter(direction)
constructs a per-segment cursor" whose state starts out zeroed (no loaded
block, no last-consumed block key) with the requested direction, reading
through a fresh reader from the factory. -/

/-- Modelled from the spec: the missing `SegmentReader.RowIter(direction)`
constructor — a fresh cursor (zero state) over a fresh open reader with the
requested direction. -/
def mkRowIter (m : SegMeta) (direction : Nat) : RowIter :=
  ⟨none, none, 0, ⟨m, false⟩, direction⟩

/-- `firstValue`: like `bytes.Compare` but direction-aware; `1` if `a` comes
first in scan order, `0` on equality, `-1` otherwise. -/
def firstValue (a b : Bytes) (direction : Nat) : Int :=
  match bcmp a b with
  | .eq => 0
  | .gt => if direction = DirectionDescending then 1 else -1
  | .lt => if direction = DirectionDescending then -1 else 1

/-- `findMaxIndexes`: indexes of all maximal elements under an integer
comparison function. -/
def findMaxIndexes (arr : List α) (cmp : α → α → Int) : List Nat :=
  match arr with
  | [] => []
  | a0 :: rest =>
    let step := fun (st : α × List Nat × Nat) (x : α) =>
      let (mx, idxs, i) := st
      let c := cmp x mx
      if c > 0 then (x, [i], i + 1)
      else if c = 0 then (mx, idxs ++ [i], i + 1)
      else (mx, idxs, i + 1)
    (rest.foldl step (a0, [0], 1)).2.1

/-- The `sort.Slice` comparator of `Reader.GetRange`: level ascending; both
level 0 → ID descending; otherwise first key ascending (ascending scan) or
last key descending (descending scan). -/
def getRangeLess (direction : Nat) (a b : SegmentRecord) : Bool :=
  if a.Level ≠ b.Level then a.Level < b.Level
  else if a.Level = 0 ∧ b.Level = 0 then bGT a.ID b.ID
  else if direction = DirectionAscending then bLT a.Metadata.FirstKey b.Metadata.FirstKey
  else bGT a.Metadata.LastKey b.Metadata.LastKey

/-- Outcome of `Reader.GetRange`. `.errIter` collects the wrapped iterator /
setup errors (including an `io.EOF` from a setup `Next` and any error inside
the tombstone roll-forward, where the source does not excuse `io.EOF`);
`.panic` is a Go runtime panic (in particular the out-of-range write
`rows[addedRowIndex]` when `limit` rows were already emitted);
`.fuelOut` is an artifact of the bounded loops of this embedding. -/
inductive GRes where
  | ok (rows : List KVPair)
  | errInvalidRange
  | errNoNextIndexFound
  | errIter
  | panic
  | fuelOut
deriving DecidableEq

instance : Inhabited SegMeta := ⟨⟨none, [], [], []⟩⟩

instance : Inhabited SegReader := ⟨⟨default, false⟩⟩

instance : Inhabited RowIter := ⟨⟨none, none, 0, default, 0⟩⟩

instance : Inhabited SegmentRecord := ⟨⟨[], 0, default⟩⟩

/-- Outcome of the cursor setup phase. -/
inductive SetupRes where
  | ok (l : List (RowIter × KVPair))
  | err
  | panic
  | fuelOut
deriving Inhabited

/-- Setup of per-segment cursors: for each candidate (one task at a time —
the source waits on the group inside the submission loop), a fresh iterator
is seeked to the scan start and primed with one `Next`; any error —
including an immediate `io.EOF` — aborts `GetRange`. -/
def getRangeSetup (fuel : Nat) (direction : Nat) (startRange : Bytes) :
    List SegmentRecord → SetupRes
  | [] => .ok []
  | segment :: rest =>
    let iter := mkRowIter segment.Metadata direction
    match rowIterSeek fuel iter startRange with
    | (.ok, iter) =>
      match rowIterNext iter with
      | (.row pair, iter) =>
        match getRangeSetup fuel direction startRange rest with
        | .ok tail => .ok ((iter, pair) :: tail)
        | r => r
      | (.panic, _) => .panic
      | _ => .err
    | (.err, _) => .err
    | (.panic, _) => .panic
    | (.fuelOut, _) => .fuelOut

/-- State of the merge loop: the iterators and their cursor buffer (parallel
arrays in the source), the emitted rows, and the last emitted key. -/
structure MergeState where
  iters : List RowIter
  cursors : List KVPair
  rows : List KVPair
  lastKey : Bytes

/-- Outcome of a roll-forward pass. -/
inductive RollRes where
  | ok (st : MergeState)
  | err
  | panic

/-- Advance the iterators at the given indexes ("roll forward"), one after
the other (the source waits on each task before submitting the next).
`excuseEOF` selects the main roll-forward behavior, where an `io.EOF` keeps
the previous cursor value; the tombstone roll-forward does not excuse
`io.EOF` and fails on it. -/
def rollForward (excuseEOF : Bool) (st : MergeState) : List Nat → RollRes
  | [] => .ok st
  | ind :: rest =>
    let (res, iter') := rowIterNext (st.iters.getD ind default)
    let st := { st with iters := st.iters.set ind iter' }
    match res with
    | .row p => rollForward excuseEOF { st with cursors := st.cursors.set ind p } rest
    | .eof => if excuseEOF then rollForward excuseEOF st rest else .err
    | .closedErr => .err
    | .panic => .panic

/-- The merge loop of `Reader.GetRange`: find the front cursors
(`findMaxIndexes` under `firstValue`); if the highest-precedence front
cursor sits in a level-0 segment and its value is a *nil* slice, roll every
front cursor forward and continue; stop on a repeated key or when the front
key leaves the range; emit the row of the highest-precedence front cursor
into `rows[addedRowIndex]` (a Go slice of length `limit` — the write panics
once `limit` rows were already emitted); stop at `limit`; otherwise roll the
front cursors forward and continue. -/
def mergeLoop (possibleSegments : List SegmentRecord) (direction : Nat)
    (start stop : Bytes) (limit : Int) : Nat → MergeState → GRes
  | 0, _ => .fuelOut
  | fuel + 1, st =>
    let nextIndexes := findMaxIndexes st.cursors (fun a b => firstValue a.Key b.Key direction)
    match nextIndexes with
    | [] => .errNoNextIndexFound
    | i0 :: _ =>
      if (possibleSegments.getD i0 default).Level = 0 ∧ (st.cursors.getD i0 default).Value = none then
        match rollForward false st nextIndexes with
        | .ok st => mergeLoop possibleSegments direction start stop limit fuel st
        | .err => .errIter
        | .panic => .panic
      else
        let row := st.cursors.getD i0 default
        if ¬ bequal [] st.lastKey ∧ bequal row.Key st.lastKey then .ok st.rows
        else if direction = DirectionAscending ∧ bGE row.Key stop then .ok st.rows
        else if direction = DirectionDescending ∧ bLE row.Key start then .ok st.rows
        else
          let st := { st with lastKey := row.Key }
          if (st.rows.length : Int) ≥ limit then .panic
          else
            let st := { st with rows := st.rows ++ [row] }
            if (st.rows.length : Int) ≥ limit then .ok st.rows
            else
              match rollForward true st nextIndexes with
              | .ok st => mergeLoop possibleSegments direction start stop limit fuel st
              | .err => .errIter
              | .panic => .panic

/-- `Reader.GetRange`: reject `start ≥ end`, collect and sort candidates,
set up one seeked-and-primed cursor per candidate (closing readers is a
no-op here), then run the merge loop and return the emitted rows.  `limit`
is a Go `int`; `make([]KVPair, limit)` panics when it is negative. -/
def GetRange (fuel : Nat) (tree : List SegmentRecord) (start stop : Bytes)
    (limit : Int) (direction : Nat) : GRes :=
  if bGE start stop then .errInvalidRange
  else
    let possibleSegments := getPossibleSegmentsForRange tree start stop
    if possibleSegments.isEmpty then .ok []
    else
      let possibleSegments := sortSlice (getRangeLess direction) possibleSegments
      let startRange := if direction = DirectionDescending then stop else start
      match getRangeSetup fuel direction startRange possibleSegments with
      | .err => .errIter
      | .panic => .panic
      | .fuelOut => .fuelOut
      | .ok pairs =>
        if limit < 0 then .panic
        else
          mergeLoop possibleSegments direction start stop limit fuel
            ⟨pairs.map (·.1), pairs.map (·.2), [], []⟩

/-! ## Specification-side definitions and well-formedness

`getRowSpec` below renders the claim wording for the snapshot `GetRow` ("the
first segment, in (level asc, ID desc) order, that contains the key is
authoritative; an empty value at L0 answers NoRows") to be compared with the
implementation. -/

/-- All rows of a decoded segment, in block order. -/
def allRows (m : SegMeta) : List KVPair :=
  (m.BlockIndex.map BlockEntry.rows).flatten

/-- Direct key lookup over all rows of a segment. -/
def lookupRow (m : SegMeta) (key : Bytes) : Option KVPair :=
  (allRows m).find? (fun p => bequal p.Key key)

/-- The first candidate, in list order, whose segment contains the key,
together with the row found. -/
def firstContaining (key : Bytes) : List SegmentRecord → Option (SegmentRecord × KVPair)
  | [] => none
  | seg :: rest =>
    match lookupRow seg.Metadata key with
    | some p => some (seg, p)
    | none => firstContaining key rest

/-- The claim's description of snapshot `GetRow` over a candidate list:
order by (level asc, ID desc); the first containing segment wins; an empty
value in a level-0 winner reads as NoRows. -/
def getRowSpec (cands : List SegmentRecord) (key : Bytes) : GetRowRes :=
  match firstContaining key (sortSlice getRowLess cands) with
  | none => .noRows
  | some (seg, p) => if seg.Level = 0 ∧ gbytes p.Value = [] then .noRows else .ok p.Value

/-- The strict `bcmp` order as a relation. -/
def bytesLTr (a b : Bytes) : Prop := bLT a b = true

instance : DecidableRel bytesLTr := fun a b =>
  inferInstanceAs (Decidable (bLT a b = true))

/-- Well-formed decoded block list: blocks are non-empty, each block's index
key is its first row's key, and the concatenated row keys are strictly
ascending (as the writer produces and the block format stores them). -/
def WFBlocks (idx : List BlockEntry) : Prop :=
  (∀ b ∈ idx, b.rows ≠ []) ∧
  (∀ b ∈ idx, (b.rows.headD default).Key = b.FirstKey) ∧
  ((idx.map BlockEntry.rows).flatten.map KVPair.Key).Pairwise bytesLTr

/-- Well-formed decoded segment: well-formed blocks, and a bloom filter (if
any) without false negatives on the segment's keys. -/
def WFSeg (m : SegMeta) : Prop :=
  WFBlocks m.BlockIndex ∧
  ∀ bf, m.BloomFilter = some bf → ∀ p ∈ allRows m, bf p.Key = true

/-- The simple recursive form of "the last block whose first key is `≤ key`"
(proved equal to the descend-based `getRowFindStat`). -/
def lastLEaux (key : Bytes) : List BlockEntry → Option BlockEntry
  | [] => none
  | e :: rest =>
    match lastLEaux key rest with
    | some x => some x
    | none => if bLT key e.FirstKey then none else some e

/-- The reader-side view of a writer block stat, as `parseBlockIndex`
reconstructs it (final length is `BlockSize`, uncompressed length is
`OriginalSize`). -/
def statView (st : blockStat) : BlockStat :=
  ⟨st.firstKey, st.offset, st.finalBytes, st.rawBytes, st.compressedBytes, st.hash⟩

/-- Run a sequence of `WriteRow` calls. -/
def writeAll (s : SegmentWriter) : List (Bytes × Bytes) → Except WriteErr SegmentWriter
  | [] => .ok s
  | (k, v) :: rest =>
    match WriteRow s k v with
    | .ok s' => writeAll s' rest
    | .error e => .error e

/-- `iterNextN n it`: the result of the `(n+1)`-th `Next` call starting from
`it` (threading the iterator state). -/
def iterNextN : Nat → RowIter → NextRes × RowIter
  | 0, it => rowIterNext it
  | n + 1, it => iterNextN n (rowIterNext it).2

/-! ## Concrete instances used by the counterexample evaluations -/

/-- Writer options for the concrete runs: no compression, no bloom filter,
block threshold 4, alignment 8. -/
def cOpts : SegmentWriterOptions := ⟨0, false, none, 4, 8⟩

/-- Writer options with the repository defaults for threshold/alignment
(3584 / 4096, spec §6), no compression, no bloom filter. -/
def cOptsDefault : SegmentWriterOptions := ⟨0, false, none, 3584, 4096⟩

/-- C4 data: a wide level-0 segment `["a", "z"]`. -/
def c4segA : SegmentRecord := ⟨[65], 0, ⟨none, [97], [122], []⟩⟩

/-- C4 data: a narrow level-0 segment `["b", "c"]`. -/
def c4segB : SegmentRecord := ⟨[66], 0, ⟨none, [98], [99], []⟩⟩

/-- C4 data: the range tree holding both segments (in tree order). -/
def c4tree : List SegmentRecord := [c4segA, c4segB]

/-- C1 data: a level-1 segment holding key `[107]` with value `[118]`. -/
def c1segL1 : SegmentRecord :=
  ⟨[1], 1, ⟨none, [107], [107], [⟨[107], [⟨[107], some [118]⟩]⟩]⟩⟩

/-- C1 data: a newer level-0 segment holding an (empty-valued) tombstone for
the same key `[107]`; block decoding yields the empty-but-non-nil value
`some []`. -/
def c1segL0 : SegmentRecord :=
  ⟨[2], 0, ⟨none, [107], [107], [⟨[107], [⟨[107], some []⟩]⟩]⟩⟩

/-- C1 data: the snapshot tree (tree order: equal key ranges, ID asc). -/
def c1tree : List SegmentRecord := [c1segL1, c1segL0]

/-- C6 data: a single level-0 segment with two in-range rows. -/
def c6seg : SegmentRecord :=
  ⟨[1], 0, ⟨none, [107], [109], [⟨[107], [⟨[107], some [9]⟩, ⟨[109], some [10]⟩]⟩]⟩⟩

/-- C9 witness data: a one-block ascending iterator positioned past its last
row (the next `Next` call hits end-of-iteration). -/
def c9iter : RowIter :=
  ⟨some [5], some [⟨[5], some [9]⟩], 1,
    ⟨⟨none, [5], [5], [⟨[5], [⟨[5], some [9]⟩]⟩]⟩, false⟩, DirectionAscending⟩

/-- C10 data: a structurally complete meta block whose block index declares
zero entries. -/
def c10zeroCount : Bytes := [0, 0] ++ [0, 0] ++ [0] ++ [0] ++ [0] ++ List.replicate 8 0

/-- The full `WriteRow` + `Close` run used by the C2 evaluation. -/
def c2run : Except WriteErr (Nat × Bytes × SegmentWriter) :=
  Except.bind (WriteRow (NewSegmentWriter cOpts) [97] [98]) Close

/-- Whether the C2 run succeeded. -/
def c2isOk : Bool := match c2run with | .ok _ => true | .error _ => false

/-- The file length returned by the C2 run. -/
def c2len : Nat := match c2run with | .ok (n, _, _) => n | .error _ => 0

/-- The meta block bytes returned by the C2 run. -/
def c2meta : Bytes := match c2run with | .ok (_, m, _) => m | .error _ => []

/-- The file image produced by the C2 run. -/
def c2file : Bytes := match c2run with | .ok (_, _, s2) => s2.externalBytes | .error _ => []

/-- C5 witness data: a level-1 segment over `[[100], [110]]`. -/
def c5segL1 : SegmentRecord :=
  ⟨[1], 1, ⟨none, [100], [110], [⟨[100], [⟨[100], some [1]⟩, ⟨[110], some [2]⟩]⟩]⟩⟩

/-- C5 witness data: a newer level-0 segment overwriting key `[100]`. -/
def c5segL0 : SegmentRecord :=
  ⟨[2], 0, ⟨none, [100], [100], [⟨[100], [⟨[100], some [3]⟩]⟩]⟩⟩

/-- C5 witness data: the snapshot tree. -/
def c5tree : List SegmentRecord := [c5segL1, c5segL0]

/-- C8 witness data: a level-1 segment storing an empty (but non-nil) value
for key `[107]`, as compaction materializes an overwrite-with-empty. -/
def c8seg : SegmentRecord :=
  ⟨[9], 1, ⟨none, [107], [107], [⟨[107], [⟨[107], some []⟩]⟩]⟩⟩

/-- C8 witness data: the snapshot tree holding only that segment. -/
def c8tree : List SegmentRecord := [c8seg]

/-! ## Writer invariants used by the meta-block round trip (C7) -/

/-- The numeric fields of a writer block stat stay below `2^64` and its first
key fits the u16 length prefix. -/
def statBounds (st : blockStat) : Prop :=
  st.firstKey.length < 2 ^ 16 ∧ st.offset < 2 ^ 64 ∧ st.finalBytes < 2 ^ 64 ∧
  st.rawBytes < 2 ^ 64 ∧ st.compressedBytes < 2 ^ 64 ∧ st.hash < 2 ^ 64

/-- Invariant of the writer state along a strictly-increasing `WriteRow`
sequence: stat bounds, bounded counters, strictly ascending block first keys
all `≤ lastKey`, and (while a block is open) a bounded block start key lying
between the flushed blocks and `lastKey`. -/
def WInv (s : SegmentWriter) : Prop :=
  (∀ st ∈ s.blockIndex, statBounds st) ∧
  s.lastKey.length < 2 ^ 16 ∧
  s.currentByteOffset < 2 ^ 64 ∧
  s.currentRawBlockSize < 2 ^ 64 ∧
  (s.blockIndex.map blockStat.firstKey).Pairwise bytesLTr ∧
  (∀ st ∈ s.blockIndex, bLE st.firstKey s.lastKey = true) ∧
  (s.blockWriterActive = true →
    s.currentBlockStartKey.length < 2 ^ 16 ∧
    bLE s.currentBlockStartKey s.lastKey = true ∧
    ∀ st ∈ s.blockIndex, bLT st.firstKey s.currentBlockStartKey = true)

/-- C7 witness data: the two-row run (each row flushes its own block under
`cOpts`). -/
def c7rows : List (Bytes × Bytes) := [([97], [98]), ([99], [100])]

/-- The `writeAll` + `Close` run used by the C7 witness. -/
def c7run : Except WriteErr (Nat × Bytes × SegmentWriter) :=
  Except.bind (writeAll (NewSegmentWriter cOpts) c7rows) Close

/-- The meta block bytes returned by the C7 run. -/
def c7meta : Bytes := match c7run with | .ok (_, m, _) => m | .error _ => []

/-- The final writer state returned by the C7 run. -/
def c7state : SegmentWriter :=
  match c7run with | .ok (_, _, s2) => s2 | .error _ => NewSegmentWriter cOpts

/-- The bloom-filter block bytes of `generateMetaBlock`: presence byte, then
(for a configured filter) the u64 length and the filter bytes. -/
def bloomB : Option Bytes → Bytes
  | some bb => 1 :: (putUintLE 8 bb.length ++ bb)
  | none => [0]

/-- The writer state after the C7 witness rows (each row flushes a block). -/
def c7mid : SegmentWriter :=
  match writeAll (NewSegmentWriter cOpts) c7rows with
  | .ok s => s
  | .error _ => NewSegmentWriter cOpts

/-- The file length returned by the C7 run. -/
def c7len : Nat := match c7run with | .ok (n, _, _) => n | .error _ => 0

/-! ## Theorems -/

/-- C3: the claim says `WriteRow` on an open writer rejects an empty key
with the `InvalidKey` error and appends nothing.  The source has no
empty-key check at all (no `ErrInvalidKey` is even defined in it, although
`TestEmptyKey` expects one): the call succeeds and appends the 6-byte
record header for the empty row to the block payload. -/
theorem writeRow_accepts_empty_key :
    WriteRow (NewSegmentWriter cOptsDefault) [] [] =
      .ok ⟨6, [], [0, 0, 0, 0, 0, 0], true, [], 0, [], [], cOptsDefault, false⟩ := by
  rfl

set_option maxRecDepth 100000 in
/-- C2: the claim says the first trailer field is the file offset at which
the meta block starts, and that `FetchAndLoadMetadata` consequently succeeds
on every written segment.  On the concrete run (one row `"a" → "b"`,
threshold 4, alignment 8) the produced 93-byte file holds its 60-byte meta
block at offsets `[16, 76)`, yet the trailer's first u64 field reads 76 —
`Close` captures the offset *after* advancing past the meta block — so
`FetchAndLoadMetadata` reads a zero-length meta block and fails with
`ErrMismatchedMetaBlockHash` instead of succeeding. -/
theorem close_trailer_offset_and_fetch_fail :
    c2isOk = true ∧ c2len = 93 ∧ c2file.length = 93 ∧ c2meta.length = 60 ∧
      (c2file.drop 16).take 60 = c2meta ∧
      leVal ((c2file.drop 76).take 8) = 76 ∧
      FetchAndLoadMetadata c2file = .errMismatchedMetaBlockHash := by
  decide

/-- C4: the claim says the candidate list contains every live segment whose
range contains the probe key (resp. overlaps the probe range).  With the
wide segment `["a","z"]` and the narrow segment `["b","c"]` in the range
tree, probing key `"d"` (and range `["d","e")`) visits the narrow segment
first, fails its containment test, and stops the descent — returning an
empty candidate list although the wide segment contains the key (and
overlaps the range) under the source's own tests. -/
theorem candidate_selection_misses_containing_segment :
    (getPossibleSegmentsForKey c4tree [100]).isEmpty = true ∧
      (bGE [100] c4segA.Metadata.FirstKey && bLE [100] c4segA.Metadata.LastKey) = true ∧
      (getPossibleSegmentsForRange c4tree [100] [101]).isEmpty = true ∧
      (!(bGT [100] c4segA.Metadata.LastKey || bLT [101] c4segA.Metadata.FirstKey)) = true := by
  decide

/-- C1: the claim says an L0 tombstone at the front of the merge suppresses
the key on range reads.  The merge's tombstone test compares the cursor
value against a Go nil slice, but block decoding always yields non-nil
(possibly empty) values, so the test never fires: with an L0 tombstone for
key `[107]` over an L1 value, `GetRange` emits the empty-valued row instead
of masking the key — while the same snapshot's point read does return
NoRows. -/
theorem getRange_emits_l0_tombstone :
    GetRange 100 c1tree [106] [122] 10 DirectionAscending = .ok [⟨[107], some []⟩] ∧
      GetRow c1tree [107] = .noRows := by
  decide

/-- C6: the claim says `GetRange` with `limit = 0` returns an empty result.
With one candidate segment holding in-range rows, the merge writes the first
emitted row into `rows[0]` of a zero-length slice and panics; with
`limit = 1` and two available rows it returns exactly one row. -/
theorem getRange_zero_limit_panics :
    GetRange 100 [c6seg] [106] [122] 0 DirectionAscending = .panic ∧
      GetRange 100 [c6seg] [106] [122] 1 DirectionAscending = .ok [⟨[107], some [9]⟩] := by
  decide

/-- An `ErrInvalidMetaBlock` from `parseBlockIndex` can only come from a
successfully read entry count whose Go `int` value is zero. -/
theorem parseBlockIndex_invalid_only_zero_count (rem : Bytes)
    (h : parseBlockIndex rem = .inl .invalidMetaBlock) :
    ∃ cnt rest, (mustReadBytes rem 1).bind (fun _ r => mustReadBytes r 8) = .ok cnt rest ∧
      goInt64OfUint64 (leVal cnt) = 0 := by
  unfold parseBlockIndex at h
  split at h
  · simp at h
  · rename_i cnt rest heq
    split at h
    · rename_i hzero
      exact ⟨cnt, rest, heq, hzero⟩
    · split at h <;> simp_all

/-- C10: `BytesToMetadata` is not total: truncated meta blocks (the empty
input; an input declaring a 2-byte first key with 1 byte left) panic via
`mustReadBytes` instead of returning an error, and the only input condition
reported as `ErrInvalidMetaBlock` is a block index declaring zero entries
(shown on a concrete input, and in general: every `invalidMetaBlock` result
comes from a successfully parsed entry-count field whose value is zero). -/
theorem bytesToMetadata_partiality :
    BytesToMetadata [] = .panic ∧
    BytesToMetadata [2, 0, 65] = .panic ∧
    BytesToMetadata c10zeroCount = .invalidMetaBlock ∧
    ∀ bs, BytesToMetadata bs = .invalidMetaBlock →
      ∃ rem cnt rest, parseBlockIndex rem = .inl .invalidMetaBlock ∧
        (mustReadBytes rem 1).bind (fun _ r => mustReadBytes r 8) = .ok cnt rest ∧
        goInt64OfUint64 (leVal cnt) = 0 := by
  refine ⟨by decide, by decide, by decide, ?_⟩
  intro bs h
  unfold BytesToMetadata at h
  split at h
  · exact absurd h (by simp)
  · split at h
    · exact absurd h (by simp)
    · split at h
      · exact absurd h (by simp)
      · split at h
        · rename_i r heq
          subst h
          obtain ⟨cnt, rest, h1, h2⟩ := parseBlockIndex_invalid_only_zero_count _ heq
          exact ⟨_, cnt, rest, heq, h1, h2⟩
        · exact absurd h (by simp)

/-- Seeding changes at most `statLastKey`. -/
theorem rowIterSeed_fields (r : RowIter) :
    (rowIterSeed r).s = r.s ∧ (rowIterSeed r).blockRows = r.blockRows ∧
      (rowIterSeed r).blockRowIdx = r.blockRowIdx ∧ (rowIterSeed r).direction = r.direction := by
  unfold rowIterSeed
  split <;> simp

/-- Seeding is idempotent. -/
theorem rowIterSeed_idem (r : RowIter) : rowIterSeed (rowIterSeed r) = rowIterSeed r := by
  unfold rowIterSeed
  split
  · rename_i hseed
    rw [if_neg]
    simp
  · rfl

/-- An end-of-iteration result from the block-loading tail leaves the
reader, loaded block, row index and direction unchanged, and the resulting
state reproduces the end-of-iteration result. -/
theorem rowIterNextLoad_eof (r r' : RowIter) (h : rowIterNextLoad r = (.eof, r')) :
    r'.s = r.s ∧ r'.blockRows = r.blockRows ∧ r'.blockRowIdx = r.blockRowIdx ∧
      r'.direction = r.direction ∧ rowIterNextLoad r' = (.eof, r') := by
  unfold rowIterNextLoad at h
  dsimp only at h
  split at h
  · simp only [Prod.mk.injEq] at h
    obtain ⟨-, rfl⟩ := h
    obtain ⟨h1, h2, h3, h4⟩ := rowIterSeed_fields r
    refine ⟨h1, h2, h3, h4, ?_⟩
    unfold rowIterNextLoad
    dsimp only
    rw [rowIterSeed_idem]
    rename_i hstat
    rw [hstat]
  · split at h <;> simp at h

/-- C9: on an open segment reader, once `RowIter.Next` has returned
end-of-iteration, the resulting iterator state is absorbing: the very next
`Next` call returns EOF with an unchanged state, and so does every further
call — the iterator never yields another row. -/
theorem rowIterNext_eof_absorbing (it it' : RowIter)
    (hopen : it.s.closed = false) (h : rowIterNext it = (.eof, it')) :
    rowIterNext it' = (.eof, it') ∧ ∀ n, iterNextN n it' = (.eof, it') := by
  unfold rowIterNext at h
  rw [if_neg (by simp [hopen])] at h
  have core : rowIterNext it' = (.eof, it') := by
    split at h
    · rename_i rows heq
      split at h
      · simp at h
      · rename_i hcond
        obtain ⟨h1, h2, h3, h4, h5⟩ := rowIterNextLoad_eof it it' h
        unfold rowIterNext
        rw [if_neg (by simp [h1, hopen])]
        rw [h2, heq]
        dsimp only
        rw [h3, if_neg hcond]
        exact h5
    · rename_i heq
      obtain ⟨h1, h2, h3, h4, h5⟩ := rowIterNextLoad_eof it it' h
      unfold rowIterNext
      rw [if_neg (by simp [h1, hopen])]
      rw [h2, heq]
      exact h5
  refine ⟨core, ?_⟩
  intro n
  induction n with
  | zero => exact core
  | succ n ih => simpa only [iterNextN, core] using ih

/-- C9 witness: a concrete open one-block ascending iterator positioned past
its last row hits EOF and stays at EOF forever. -/
theorem rowIterNext_eof_absorbing_witness :
    rowIterNext c9iter = (.eof, c9iter) ∧ ∀ n, iterNextN n c9iter = (.eof, c9iter) :=
  rowIterNext_eof_absorbing c9iter c9iter rfl rfl

/-! ### Order facts about `bcmp` -/

/-- `bcmp` answers `.eq` exactly on equal byte strings. -/
theorem bcmp_eq_iff : ∀ {a b : Bytes}, bcmp a b = .eq ↔ a = b
  | [], [] => by simp [bcmp]
  | [], _ :: _ => by simp [bcmp]
  | _ :: _, [] => by simp [bcmp]
  | a :: as, b :: bs => by
    unfold bcmp
    split
    · simp
      omega
    · split
      · simp
        omega
      · have : a = b := by omega
        subst this
        simpa using bcmp_eq_iff

/-- `bcmp` on swapped arguments swaps the ordering. -/
theorem bcmp_swap : ∀ (a b : Bytes), (bcmp a b).swap = bcmp b a
  | [], [] => by simp [bcmp, Ordering.swap]
  | [], _ :: _ => by simp [bcmp, Ordering.swap]
  | _ :: _, [] => by simp [bcmp, Ordering.swap]
  | a :: as, b :: bs => by
    unfold bcmp
    rcases Nat.lt_trichotomy a b with h | h | h
    · simp [h, Nat.lt_asymm h, Ordering.swap]
    · subst h
      simpa [Nat.lt_irrefl] using bcmp_swap as bs
    · simp [h, Nat.lt_asymm h, Ordering.swap]

/-- Transitivity of the strict `bcmp` order. -/
theorem bcmp_lt_trans : ∀ {a b c : Bytes},
    bcmp a b = .lt → bcmp b c = .lt → bcmp a c = .lt
  | [], _ :: _, _ :: _, _, _ => rfl
  | [], [], _, hab, _ => by simp [bcmp] at hab
  | [], _ :: _, [], _, hbc => by simp [bcmp] at hbc
  | _ :: _, [], _, hab, _ => by simp [bcmp] at hab
  | _ :: _, _ :: _, [], _, hbc => by simp [bcmp] at hbc
  | a :: as, b :: bs, c :: cs, hab, hbc => by
    unfold bcmp at hab hbc ⊢
    split at hab
    · split at hbc
      · rw [if_pos (by omega)]
      · split at hbc
        · simp at hbc
        · rw [if_pos (by omega)]
    · split at hab
      · simp at hab
      · split at hbc
        · rw [if_pos (by omega)]
        · split at hbc
          · simp at hbc
          · rw [if_neg (by omega), if_neg (by omega)]
            exact bcmp_lt_trans hab hbc

/-- `bLT` is transitive. -/
theorem bLT_trans {a b c : Bytes} (h1 : bLT a b = true) (h2 : bLT b c = true) :
    bLT a c = true := by
  simp only [bLT, decide_eq_true_eq] at *
  exact bcmp_lt_trans h1 h2

/-- `¬(a < b)` is `b ≤ a`. -/
theorem bLT_false_iff {a b : Bytes} : bLT a b = false ↔ bLE b a = true := by
  simp only [bLT, bLE, decide_eq_true_eq, decide_eq_false_iff_not]
  rw [← bcmp_swap b a]
  cases bcmp b a <;> simp [Ordering.swap]

/-- `a ≤ b` is `a < b` or `a = b`. -/
theorem bLE_iff {a b : Bytes} : bLE a b = true ↔ bLT a b = true ∨ a = b := by
  simp only [bLE, bLT, decide_eq_true_eq]
  constructor
  · intro h
    cases hc : bcmp a b
    · exact .inl rfl
    · exact .inr (bcmp_eq_iff.mp hc)
    · exact absurd hc h
  · rintro (h | rfl)
    · simp [h]
    · simp [bcmp_eq_iff.mpr rfl]

/-- Strict-below-or-equal transitivity: `a ≤ b < c → a < c`. -/
theorem bLE_bLT_trans {a b c : Bytes} (h1 : bLE a b = true) (h2 : bLT b c = true) :
    bLT a c = true := by
  rcases bLE_iff.mp h1 with h | rfl
  · exact bLT_trans h h2
  · exact h2

/-- `a < b ≤ c → a < c`. -/
theorem bLT_bLE_trans {a b c : Bytes} (h1 : bLT a b = true) (h2 : bLE b c = true) :
    bLT a c = true := by
  rcases bLE_iff.mp h2 with h | rfl
  · exact bLT_trans h1 h
  · exact h1

/-- `a < b` excludes `a = b`. -/
theorem bLT_ne {a b : Bytes} (h : bLT a b = true) : a ≠ b := by
  rintro rfl
  simp [bLT, bcmp_eq_iff.mpr rfl] at h

instance : IsTrans Bytes bytesLTr := ⟨fun _ _ _ h1 h2 => bLT_trans h1 h2⟩

/-! ### Segment-local `GetRow` agrees with a direct row lookup -/

/-- The take-first descend callback keeps the first visited item. -/
theorem iterStop_take_first (l : List α) :
    iterStop (fun (_ : Option α) (e : α) => (some e, false)) none l = l.head? := by
  cases l <;> rfl

/-- `getRowFindStat` is the last index entry whose first key is `≤ key`. -/
theorem getRowFindStat_eq_getLast (idx : List BlockEntry) (key : Bytes) :
    getRowFindStat idx key = (idx.filter (fun e => !bLT key e.FirstKey)).getLast? := by
  unfold getRowFindStat descendLEBlocks
  rw [iterStop_take_first, List.head?_reverse]

/-- The recursive characterization of that same search. -/
theorem lastLEaux_eq_getLast (key : Bytes) : ∀ idx : List BlockEntry,
    lastLEaux key idx = (idx.filter (fun e => !bLT key e.FirstKey)).getLast?
  | [] => rfl
  | e :: rest => by
    unfold lastLEaux
    rw [lastLEaux_eq_getLast key rest, List.filter_cons]
    cases hb : bLT key e.FirstKey <;>
      cases h : (rest.filter (fun e => !bLT key e.FirstKey)).getLast? <;>
        simp [hb, h, List.getLast?_cons]

/-- `getRowFindStat` agrees with `lastLEaux`. -/
theorem getRowFindStat_eq_lastLEaux (idx : List BlockEntry) (key : Bytes) :
    getRowFindStat idx key = lastLEaux key idx := by
  rw [getRowFindStat_eq_getLast, lastLEaux_eq_getLast]

/-- The search is empty exactly when every block starts above the key. -/
theorem lastLEaux_none_iff (key : Bytes) : ∀ idx : List BlockEntry,
    (lastLEaux key idx = none ↔ ∀ x ∈ idx, bLT key x.FirstKey = true)
  | [] => by simp [lastLEaux]
  | e :: rest => by
    unfold lastLEaux
    cases h : lastLEaux key rest with
    | some x =>
      have hnall : ¬ ∀ x ∈ rest, bLT key x.FirstKey = true := by
        intro hall
        rw [(lastLEaux_none_iff key rest).mpr hall] at h
        exact Option.noConfusion h
      constructor
      · intro hfalse
        exact Option.noConfusion hfalse
      · intro hall
        exact absurd (fun x hx => hall x (List.mem_cons_of_mem _ hx)) hnall
    | none =>
      have hall := (lastLEaux_none_iff key rest).mp h
      by_cases hp : bLT key e.FirstKey = true
      · rw [if_pos hp]
        constructor
        · intro _ x hx
          rcases List.mem_cons.mp hx with rfl | hx
          · exact hp
          · exact hall x hx
        · intro _
          rfl
      · simp only [if_neg hp]
        constructor
        · intro hfalse
          exact Option.noConfusion hfalse
        · intro h2
          exact absurd (h2 e (List.mem_cons_self e rest)) hp

/-- A found block is a member whose first key is `≤ key`. -/
theorem lastLEaux_some (key : Bytes) (idx : List BlockEntry) : ∀ (x : BlockEntry),
    lastLEaux key idx = some x → x ∈ idx ∧ bLT key x.FirstKey = false := by
  induction idx with
  | nil =>
    intro x h
    exact Option.noConfusion h
  | cons e rest ih =>
    intro x h
    unfold lastLEaux at h
    cases h2 : lastLEaux key rest with
    | some y =>
      rw [h2] at h
      obtain rfl : y = x := by simpa using h
      obtain ⟨hm, hk⟩ := ih y h2
      exact ⟨List.mem_cons_of_mem _ hm, hk⟩
    | none =>
      rw [h2] at h
      cases hb : bLT key e.FirstKey with
      | true =>
        rw [if_pos hb] at h
        exact Option.noConfusion h
      | false =>
        rw [if_neg (by simp [hb])] at h
        obtain rfl : e = x := by simpa using h
        exact ⟨List.mem_cons_self _ _, hb⟩

/-- In a well-formed block list, a block's first key bounds its rows. -/
theorem head_block_le {e : BlockEntry} {rest : List BlockEntry}
    (hwf : WFBlocks (e :: rest)) : ∀ q ∈ e.rows, bLE e.FirstKey q.Key = true := by
  obtain ⟨hne, hhead, hpair⟩ := hwf
  have hpe : (e.rows.map KVPair.Key).Pairwise bytesLTr := by
    have hs : ((e :: rest).map BlockEntry.rows).flatten =
        e.rows ++ (rest.map BlockEntry.rows).flatten := by simp
    rw [hs, List.map_append] at hpair
    exact (List.pairwise_append.mp hpair).1
  have hh := hhead e (List.mem_cons_self _ _)
  intro q hq
  cases he : e.rows with
  | nil =>
    rw [he] at hq
    exact absurd hq (List.not_mem_nil q)
  | cons p0 tl =>
    have hk : p0.Key = e.FirstKey := by
      rw [he] at hh
      simpa using hh
    rw [he] at hq hpe
    simp only [List.map_cons, List.pairwise_cons] at hpe
    rcases List.mem_cons.mp hq with rfl | hq
    · rw [← hk]
      exact bLE_iff.mpr (.inr rfl)
    · have hlt := hpe.1 q.Key (List.mem_map_of_mem KVPair.Key hq)
      rw [hk] at hlt
      exact bLE_iff.mpr (.inl hlt)

/-- Well-formedness passes to the tail. -/
theorem WFBlocks_tail {e : BlockEntry} {rest : List BlockEntry}
    (hwf : WFBlocks (e :: rest)) : WFBlocks rest := by
  obtain ⟨hne, hhead, hpair⟩ := hwf
  refine ⟨fun b hb => hne b (List.mem_cons_of_mem _ hb),
    fun b hb => hhead b (List.mem_cons_of_mem _ hb), ?_⟩
  have : ((e :: rest).map BlockEntry.rows).flatten = e.rows ++ (rest.map BlockEntry.rows).flatten := by
    simp
  rw [this, List.map_append] at hpair
  exact (List.pairwise_append.mp hpair).2.1

/-- The head block's rows sit strictly below every later row. -/
theorem head_lt_rest {e : BlockEntry} {rest : List BlockEntry}
    (hwf : WFBlocks (e :: rest)) :
    ∀ q ∈ e.rows, ∀ q' ∈ (rest.map BlockEntry.rows).flatten, bLT q.Key q'.Key = true := by
  obtain ⟨-, -, hpair⟩ := hwf
  have : ((e :: rest).map BlockEntry.rows).flatten = e.rows ++ (rest.map BlockEntry.rows).flatten := by
    simp
  rw [this, List.map_append] at hpair
  intro q hq q' hq'
  exact (List.pairwise_append.mp hpair).2.2 q.Key (List.mem_map_of_mem _ hq)
    q'.Key (List.mem_map_of_mem _ hq')

/-- Every block's first key occurs among the rows' keys. -/
theorem firstKey_mem_rows : ∀ (idx : List BlockEntry), WFBlocks idx →
    ∀ x ∈ idx, ∃ q ∈ (idx.map BlockEntry.rows).flatten, q.Key = x.FirstKey := by
  intro idx hwf x hx
  obtain ⟨hne, hhead, -⟩ := hwf
  cases he : x.rows with
  | nil => exact absurd he (hne x hx)
  | cons p0 tl =>
    refine ⟨p0, ?_, ?_⟩
    · exact List.mem_flatten.mpr ⟨x.rows, List.mem_map_of_mem _ hx, he ▸ List.mem_cons_self _ _⟩
    · have := hhead x hx
      rw [he] at this
      simpa using this

/-- If the probe key is below every block's first key, it is below every
row's key. -/
theorem rows_all_above (key : Bytes) : ∀ (idx : List BlockEntry), WFBlocks idx →
    (∀ x ∈ idx, bLT key x.FirstKey = true) →
    ∀ q ∈ (idx.map BlockEntry.rows).flatten, bLT key q.Key = true
  | [], _, _ => by simp
  | e :: rest, hwf, hall => by
    intro q hq
    have hsplit : ((e :: rest).map BlockEntry.rows).flatten =
        e.rows ++ (rest.map BlockEntry.rows).flatten := by simp
    rw [hsplit, List.mem_append] at hq
    rcases hq with hq | hq
    · exact bLT_bLE_trans (hall e (List.mem_cons_self _ _)) (head_block_le hwf q hq)
    · exact rows_all_above key rest (WFBlocks_tail hwf)
        (fun x hx => hall x (List.mem_cons_of_mem _ hx)) q hq

/-- The block-scan of `SegmentReader.GetRow` finds exactly what a linear
search over all rows finds, on well-formed blocks. -/
theorem blockScan_eq_find (key : Bytes) : ∀ (idx : List BlockEntry), WFBlocks idx →
    (match lastLEaux key idx with
     | none => none
     | some e => e.rows.find? (fun p => bequal p.Key key)) =
    ((idx.map BlockEntry.rows).flatten).find? (fun p => bequal p.Key key)
  | [], _ => rfl
  | e :: rest, hwf => by
    have hwft := WFBlocks_tail hwf
    have hsplit : ((e :: rest).map BlockEntry.rows).flatten =
        e.rows ++ (rest.map BlockEntry.rows).flatten := by simp
    obtain ⟨p0, hp0e, hp0k⟩ : ∃ p0 ∈ e.rows, p0.Key = e.FirstKey := by
      cases he : e.rows with
      | nil => exact absurd he (hwf.1 e (List.mem_cons_self _ _))
      | cons q tl =>
        refine ⟨q, List.mem_cons_self _ _, ?_⟩
        have := hwf.2.1 e (List.mem_cons_self _ _)
        rw [he] at this
        simpa using this
    rw [hsplit, List.find?_append]
    by_cases hp : bLT key e.FirstKey = true
    · -- the probe key sits below the whole segment
      have hrestAbove : ∀ q' ∈ (rest.map BlockEntry.rows).flatten, bLT key q'.Key = true := by
        intro q' hq'
        have h1 : bLT e.FirstKey q'.Key = true := hp0k ▸ head_lt_rest hwf p0 hp0e q' hq'
        exact bLT_trans hp h1
      have hnone : lastLEaux key (e :: rest) = none := by
        refine (lastLEaux_none_iff key (e :: rest)).mpr ?_
        intro x hx
        rcases List.mem_cons.mp hx with rfl | hx
        · exact hp
        · obtain ⟨q, hqm, hqk⟩ := firstKey_mem_rows rest hwft x hx
          exact hqk ▸ hrestAbove q (List.mem_flatten.mpr (by
            obtain ⟨l, hl, hql⟩ := List.mem_flatten.mp hqm
            exact ⟨l, hl, hql⟩))
      rw [hnone]
      have hfe : e.rows.find? (fun p => bequal p.Key key) = none := by
        refine List.find?_eq_none.mpr ?_
        intro q hq
        have : bLT key q.Key = true := bLT_bLE_trans hp (head_block_le hwf q hq)
        simpa [bequal] using Ne.symm (bLT_ne this)
      have hfr : ((rest.map BlockEntry.rows).flatten).find? (fun p => bequal p.Key key) = none := by
        refine List.find?_eq_none.mpr ?_
        intro q hq
        simpa [bequal] using Ne.symm (bLT_ne (hrestAbove q hq))
      rw [hfe, hfr]
      rfl
    · cases hr : lastLEaux key rest with
      | some x =>
        have hL : lastLEaux key (e :: rest) = some x := by
          unfold lastLEaux
          rw [hr]
        rw [hL]
        have hIH := blockScan_eq_find key rest hwft
        rw [hr] at hIH
        obtain ⟨hxm, hxk⟩ := lastLEaux_some key rest x hr
        obtain ⟨q', hq'm, hq'k⟩ := firstKey_mem_rows rest hwft x hxm
        have hfe : e.rows.find? (fun p => bequal p.Key key) = none := by
          refine List.find?_eq_none.mpr ?_
          intro q hq
          have h1 : bLT q.Key x.FirstKey = true := hq'k ▸ head_lt_rest hwf q hq q' hq'm
          have h2 : bLE x.FirstKey key = true := bLT_false_iff.mp hxk
          have : bLT q.Key key = true := bLT_bLE_trans h1 h2
          simpa [bequal] using bLT_ne this
        rw [hfe, hIH]
        rfl
      | none =>
        have hL : lastLEaux key (e :: rest) = some e := by
          unfold lastLEaux
          rw [hr, if_neg hp]
        rw [hL]
        have hfr : ((rest.map BlockEntry.rows).flatten).find? (fun p => bequal p.Key key) = none := by
          refine List.find?_eq_none.mpr ?_
          intro q hq
          have := rows_all_above key rest hwft ((lastLEaux_none_iff key rest).mp hr) q hq
          simpa [bequal] using Ne.symm (bLT_ne this)
        rw [hfr]
        cases h : e.rows.find? (fun p => bequal p.Key key) <;> simpa [Option.or] using h

/-- `bequal` is byte-string equality. -/
theorem bequal_iff {a b : Bytes} : bequal a b = true ↔ a = b := by
  simp [bequal]

/-- A row found by `lookupRow` is a segment row carrying the probed key. -/
theorem lookupRow_key {m : SegMeta} {key : Bytes} {p : KVPair}
    (h : lookupRow m key = some p) : p ∈ allRows m ∧ p.Key = key := by
  unfold lookupRow at h
  have hp : bequal p.Key key = true := by simpa using List.find?_some h
  exact ⟨List.mem_of_find?_eq_some h, bequal_iff.mp hp⟩

/-- On a well-formed segment, `SegmentReader.GetRow`'s bloom-gated block
search returns exactly the linear lookup over all rows. -/
theorem segGetRow_eq_lookup (m : SegMeta) (key : Bytes) (hwf : WFSeg m) :
    segGetRow m key = lookupRow m key := by
  have hscan :
      (match getRowFindStat m.BlockIndex key with
       | none => none
       | some e => e.rows.find? (fun p => bequal p.Key key)) = lookupRow m key := by
    rw [getRowFindStat_eq_lastLEaux]
    exact blockScan_eq_find key m.BlockIndex hwf.1
  cases hbf : m.BloomFilter with
  | none => simpa [segGetRow, hbf] using hscan
  | some bf =>
    cases hb : bf key with
    | true => simpa [segGetRow, hbf, hb] using hscan
    | false =>
      cases hl : lookupRow m key with
      | none => simp [segGetRow, hbf, hb]
      | some p =>
        obtain ⟨hm, hk⟩ := lookupRow_key hl
        have hbt := hwf.2 bf hbf p hm
        rw [hk] at hbt
        rw [hbt] at hb
        exact Bool.noConfusion hb

/-- An element produced by the keep-while-matching descend accumulator was
in the accumulator or in the visited list. -/
theorem mem_iterStop_keep (g : α → Bool) (s : α) :
    ∀ (l acc : List α),
      s ∈ iterStop (fun acc x => if g x then (acc ++ [x], true) else (acc, false)) acc l →
      s ∈ acc ∨ s ∈ l
  | [], _, h => .inl h
  | x :: xs, acc, h => by
    unfold iterStop at h
    cases hg : g x with
    | true =>
      simp only [hg, if_true] at h
      rcases mem_iterStop_keep g s xs (acc ++ [x]) h with hacc | hxs
      · rcases List.mem_append.mp hacc with h1 | h1
        · exact .inl h1
        · rcases List.mem_singleton.mp h1 with rfl
          exact .inr (List.mem_cons_self _ _)
      · exact .inr (List.mem_cons_of_mem _ hxs)
    | false =>
      simp only [hg, if_false] at h
      exact .inl h

/-- Candidates returned for a key are live segments of the snapshot tree. -/
theorem mem_getPossibleSegmentsForKey {s : SegmentRecord} {tree : List SegmentRecord}
    {key : Bytes} (h : s ∈ getPossibleSegmentsForKey tree key) : s ∈ tree := by
  unfold getPossibleSegmentsForKey descendLESegs at h
  rcases mem_iterStop_keep
      (fun record => bGE key record.Metadata.FirstKey && bLE key record.Metadata.LastKey) s
      ((tree.filter (fun x => !blockRangeLessFunc (probeRecord key) x)).reverse) [] h with
    hc | hc
  · exact absurd hc (List.not_mem_nil s)
  · exact List.mem_of_mem_filter (List.mem_reverse.mp hc)

/-- Sorted insertion preserves the elements. -/
theorem mem_insertSorted (less : α → α → Bool) (x y : α) :
    ∀ (l : List α), y ∈ insertSorted less x l ↔ y = x ∨ y ∈ l
  | [] => by simp [insertSorted]
  | z :: zs => by
    unfold insertSorted
    by_cases h : less x z = true
    · simp only [if_pos h, List.mem_cons]
    · simp only [if_neg h, List.mem_cons, mem_insertSorted less x y zs]
      tauto

/-- `sort.Slice` (as insertion sort) preserves the elements. -/
theorem mem_sortSlice (less : α → α → Bool) (y : α) :
    ∀ (l : List α), y ∈ sortSlice less l ↔ y ∈ l
  | [] => Iff.rfl
  | z :: zs => by
    show y ∈ insertSorted less z (sortSlice less zs) ↔ _
    rw [mem_insertSorted less z y (sortSlice less zs), mem_sortSlice less y zs]
    exact (List.mem_cons).symm

/-- The candidate loop of the snapshot `GetRow` answers from the first
candidate (in list order) containing the key, reading an empty level-0
value as `NoRows`. -/
theorem getRowLoop_eq_spec (key : Bytes) : ∀ (l : List SegmentRecord),
    (∀ s ∈ l, WFSeg s.Metadata) →
    getRowLoop key l =
      (match firstContaining key l with
       | none => GetRowRes.noRows
       | some (seg, p) =>
         if seg.Level = 0 ∧ gbytes p.Value = [] then .noRows else .ok p.Value)
  | [], _ => rfl
  | seg :: rest, hwf => by
    unfold getRowLoop firstContaining
    rw [segGetRow_eq_lookup seg.Metadata key (hwf seg (List.mem_cons_self _ _))]
    cases hl : lookupRow seg.Metadata key with
    | none =>
      exact getRowLoop_eq_spec key rest fun s hs => hwf s (List.mem_cons_of_mem _ hs)
    | some p =>
      dsimp only
      by_cases h0 : seg.Level = 0
      · by_cases hv : gbytes p.Value = []
        · rw [if_pos ⟨bequal_iff.mpr hv.symm, h0⟩, if_pos ⟨h0, hv⟩]
        · rw [if_neg fun hc => hv (bequal_iff.mp hc.1).symm, if_neg fun hc => hv hc.2]
      · rw [if_neg fun hc => h0 hc.2, if_neg fun hc => h0 hc.1]

/-- **C5**: snapshot `GetRow` sorts the key's candidate segments by level
ascending then ID descending, queries them in that order, and answers from
the first candidate containing the key; an empty value in a level-0 winner
and an exhausted candidate list both answer `NoRows` — i.e. `GetRow`
coincides with `getRowSpec` (the claim's rendering) on the candidate list,
for well-formed segments. -/
theorem getRow_first_containing_wins (tree : List SegmentRecord) (key : Bytes)
    (hwf : ∀ s ∈ tree, WFSeg s.Metadata) :
    GetRow tree key = getRowSpec (getPossibleSegmentsForKey tree key) key := by
  unfold GetRow getRowSpec
  exact getRowLoop_eq_spec key _ fun s hs =>
    hwf s (mem_getPossibleSegmentsForKey ((mem_sortSlice getRowLess s _).mp hs))

/-- C5 witness: on the concrete two-segment snapshot (`L1` holding `[100]`
and `[110]`, a newer `L0` overwriting `[100]`), both sides of the theorem's
equation evaluate, and the level-0 value wins the point read. -/
theorem getRow_first_containing_wins_witness :
    (∀ s ∈ c5tree, WFSeg s.Metadata) ∧
    GetRow c5tree [100] = getRowSpec (getPossibleSegmentsForKey c5tree [100]) [100] ∧
    GetRow c5tree [100] = .ok (some [3]) := by
  have hwf : ∀ s ∈ c5tree, WFSeg s.Metadata := by
    intro s hs
    have hcases : s = c5segL1 ∨ s = c5segL0 := by simpa [c5tree] using hs
    rcases hcases with rfl | rfl
    · exact ⟨by unfold WFBlocks; decide, fun bf h => nomatch h⟩
    · exact ⟨by unfold WFBlocks; decide, fun bf h => nomatch h⟩
  exact ⟨hwf, getRow_first_containing_wins c5tree [100] hwf, rfl⟩

/-- **C8**: when the first containing candidate (in level-asc, ID-desc
order) sits at a level other than 0, snapshot `GetRow` returns its stored
value as a success even when that value is empty: the empty-value-to-NoRows
conversion is applied only to level-0 winners. -/
theorem getRow_l1_empty_value_ok (tree : List SegmentRecord) (key : Bytes)
    (seg : SegmentRecord) (p : KVPair)
    (hwf : ∀ s ∈ tree, WFSeg s.Metadata)
    (hfc : firstContaining key
        (sortSlice getRowLess (getPossibleSegmentsForKey tree key)) = some (seg, p))
    (hlvl : seg.Level ≠ 0) (hval : gbytes p.Value = []) :
    GetRow tree key = .ok p.Value ∧ gbytes p.Value = [] := by
  refine ⟨?_, hval⟩
  unfold GetRow
  rw [getRowLoop_eq_spec key _ fun s hs =>
    hwf s (mem_getPossibleSegmentsForKey ((mem_sortSlice getRowLess s _).mp hs)), hfc]
  exact if_neg fun hc => hlvl hc.1

/-- C8 witness: a one-segment level-1 snapshot storing `[107] ↦ some []`
returns the empty value as a success (`ok (some [])`), not `NoRows`. -/
theorem getRow_l1_empty_value_ok_witness :
    (∀ s ∈ c8tree, WFSeg s.Metadata) ∧
    firstContaining [107]
      (sortSlice getRowLess (getPossibleSegmentsForKey c8tree [107])) =
      some (c8seg, ⟨[107], some []⟩) ∧
    c8seg.Level ≠ 0 ∧ gbytes (some ([] : Bytes)) = [] ∧
    GetRow c8tree [107] = .ok (some []) := by
  have hwf : ∀ s ∈ c8tree, WFSeg s.Metadata := by
    intro s hs
    have heq : s = c8seg := by simpa [c8tree] using hs
    subst heq
    exact ⟨by unfold WFBlocks; decide, fun bf h => nomatch h⟩
  have hfc : firstContaining [107]
      (sortSlice getRowLess (getPossibleSegmentsForKey c8tree [107])) =
      some (c8seg, ⟨[107], some []⟩) := rfl
  have hlvl : c8seg.Level ≠ 0 := by decide
  exact ⟨hwf, hfc, hlvl, rfl,
    (getRow_l1_empty_value_ok c8tree [107] c8seg ⟨[107], some []⟩ hwf hfc hlvl rfl).1⟩

/-- A little-endian encoding has exactly its requested width. -/
theorem length_putUintLE : ∀ (w v : Nat), (putUintLE w v).length = w
  | 0, _ => rfl
  | w + 1, v => by
    show (putUintLE w (v / 256)).length + 1 = w + 1
    rw [length_putUintLE w (v / 256)]

/-- A positive-width encoding is non-empty. -/
theorem putUintLE_ne_nil (w v : Nat) (hw : 0 < w) : putUintLE w v ≠ [] := by
  cases w with
  | zero => exact absurd hw (by omega)
  | succ w => exact fun h => List.noConfusion h

/-- Reading back a little-endian encoding of an in-range value. -/
theorem leVal_putUintLE : ∀ (w v : Nat), v < 2 ^ (8 * w) → leVal (putUintLE w v) = v
  | 0, v, h => by
    have : v = 0 := by simpa using h
    simp [putUintLE, leVal, this]
  | w + 1, v, h => by
    have h2 : v / 256 < 2 ^ (8 * w) := by
      have hp : (2 : Nat) ^ (8 * (w + 1)) = 256 * 2 ^ (8 * w) := by
        rw [Nat.mul_succ, pow_add]
        ring
      exact Nat.div_lt_of_lt_mul (hp ▸ h)
    show (v % 256) + 256 * leVal (putUintLE w (v / 256)) = v
    rw [leVal_putUintLE w (v / 256) h2]
    exact Nat.mod_add_div v 256

/-- An append with a non-empty left part is non-empty. -/
theorem append_ne_nil_left {a : Bytes} (b : Bytes) (ha : a ≠ []) : a ++ b ≠ [] := by
  cases a with
  | nil => exact absurd rfl ha
  | cons x xs => exact fun h => List.noConfusion h

/-- `mustReadBytes` consumes an exact-length prefix. -/
theorem mustReadBytes_exact_n (a b : Bytes) (n : Nat) (hn : a.length = n)
    (hne : a ≠ [] ∨ b ≠ []) : mustReadBytes (a ++ b) n = .ok a b := by
  subst hn
  unfold mustReadBytes
  have hnil : a ++ b ≠ [] := by
    rcases hne with h | h
    · exact append_ne_nil_left b h
    · cases a with
      | nil => simpa using h
      | cons x xs => exact fun hq => List.noConfusion hq
  rw [if_neg hnil, if_pos (by simp : a.length ≤ (a ++ b).length), List.take_left, List.drop_left]

/-- `mustReadBytes` of a single byte. -/
theorem mustReadBytes_one (b : Nat) (R : Bytes) :
    mustReadBytes (b :: R) 1 = .ok [b] R := by
  unfold mustReadBytes
  rw [if_neg (by simp), if_pos (by simp)]
  rfl

/-- A strict `bcmp` order flips to `gt` under swap. -/
theorem bLT_gt {a b : Bytes} (h : bLT a b = true) : bcmp b a = .gt := by
  have hlt : bcmp a b = .lt := by simpa [bLT] using h
  have hs := bcmp_swap a b
  rw [hlt] at hs
  exact hs.symm

/-- The Go `int` conversion is the identity below `2^63`. -/
theorem goInt64_small (n : Nat) (h : n < 2 ^ 63) : goInt64OfUint64 n = n := by
  unfold goInt64OfUint64
  rw [if_pos h]

/-- One entry-loop iteration of `parseBlockIndex` consumes one serialized
writer stat and inserts its reader-side view. -/
theorem parseStats_cons (st : blockStat) (rest : Bytes) (t : List BlockStat) (n : Nat)
    (hb : statBounds st) :
    parseStats t (n + 1) (blockStat.toBytes st ++ rest) =
      parseStats (statInsert (statView st) t) n rest := by
  obtain ⟨hk, ho, hf, hr, hc, hh⟩ := hb
  conv_lhs => unfold parseStats
  simp only [blockStat.toBytes, List.append_assoc]
  rw [mustReadBytes_exact_n (putUintLE 2 st.firstKey.length) _ 2 (length_putUintLE 2 _)
    (.inl (putUintLE_ne_nil 2 _ (by norm_num)))]
  dsimp only [PRes.bind]
  rw [leVal_putUintLE 2 _ (by simpa using hk)]
  rw [mustReadBytes_exact_n st.firstKey _ st.firstKey.length rfl
    (.inr (append_ne_nil_left _ (putUintLE_ne_nil 8 _ (by norm_num))))]
  dsimp only [PRes.bind]
  rw [mustReadBytes_exact_n (putUintLE 8 st.offset) _ 8 (length_putUintLE 8 _)
    (.inl (putUintLE_ne_nil 8 _ (by norm_num)))]
  dsimp only [PRes.bind]
  rw [mustReadBytes_exact_n (putUintLE 8 st.finalBytes) _ 8 (length_putUintLE 8 _)
    (.inl (putUintLE_ne_nil 8 _ (by norm_num)))]
  dsimp only [PRes.bind]
  rw [mustReadBytes_exact_n (putUintLE 8 st.rawBytes) _ 8 (length_putUintLE 8 _)
    (.inl (putUintLE_ne_nil 8 _ (by norm_num)))]
  dsimp only [PRes.bind]
  rw [mustReadBytes_exact_n (putUintLE 8 st.compressedBytes) _ 8 (length_putUintLE 8 _)
    (.inl (putUintLE_ne_nil 8 _ (by norm_num)))]
  dsimp only [PRes.bind]
  rw [mustReadBytes_exact_n (putUintLE 8 st.hash) _ 8 (length_putUintLE 8 _)
    (.inl (putUintLE_ne_nil 8 _ (by norm_num)))]
  dsimp only [PRes.bind]
  rw [leVal_putUintLE 8 _ ho, leVal_putUintLE 8 _ hf, leVal_putUintLE 8 _ hr,
    leVal_putUintLE 8 _ hc, leVal_putUintLE 8 _ hh]
  rfl

/-- The entry loop over exactly the serialized stats consumes all input and
folds the stats into the btree. -/
theorem parseStats_run : ∀ (l : List blockStat) (t : List BlockStat),
    (∀ st ∈ l, statBounds st) →
    parseStats t l.length ((l.map blockStat.toBytes).flatten) =
      .ok (l.foldl (fun acc st => statInsert (statView st) acc) t) []
  | [], _, _ => rfl
  | st :: l, t, hb => by
    show parseStats t (l.length + 1)
      (blockStat.toBytes st ++ (l.map blockStat.toBytes).flatten) = _
    rw [parseStats_cons st _ t l.length (hb st (List.mem_cons_self _ _))]
    exact parseStats_run l _ fun s hs => hb s (List.mem_cons_of_mem _ hs)

/-- `ReplaceOrInsert` of an entry above the whole tree appends it. -/
theorem statInsert_append (x : BlockStat) : ∀ (t : List BlockStat),
    (∀ y ∈ t, bcmp x.FirstKey y.FirstKey = .gt) → statInsert x t = t ++ [x]
  | [], _ => rfl
  | y :: ys, h => by
    unfold statInsert
    rw [h y (List.mem_cons_self _ _)]
    rw [statInsert_append x ys fun z hz => h z (List.mem_cons_of_mem _ hz)]
    rfl

/-- Inserting stats with strictly ascending first keys rebuilds them in
order. -/
theorem foldl_statInsert : ∀ (l : List blockStat) (t : List BlockStat),
    (∀ y ∈ t, ∀ st ∈ l, bLT y.FirstKey st.firstKey = true) →
    ((l.map blockStat.firstKey).Pairwise bytesLTr) →
    l.foldl (fun acc st => statInsert (statView st) acc) t = t ++ l.map statView
  | [], t, _, _ => by simp
  | st :: l, t, hlt, hpw => by
    show l.foldl _ (statInsert (statView st) t) = _
    have hpw' : (∀ a ∈ l, bytesLTr st.firstKey a.firstKey) ∧
        (l.map blockStat.firstKey).Pairwise bytesLTr := by simpa using hpw
    have h1 : statInsert (statView st) t = t ++ [statView st] :=
      statInsert_append _ t fun y hy => bLT_gt (hlt y hy st (List.mem_cons_self _ _))
    rw [h1]
    rw [foldl_statInsert l (t ++ [statView st]) ?_ hpw'.2]
    · simp
    · intro y hy st' hst'
      rcases List.mem_append.mp hy with h | h
      · exact hlt y h st' (List.mem_cons_of_mem _ hst')
      · rcases List.mem_singleton.mp h with rfl
        exact hpw'.1 st' hst'

/-- The bloom-filter block is never empty. -/
theorem bloomB_ne_nil (ob : Option Bytes) : bloomB ob ≠ [] := by
  cases ob <;> exact fun h => List.noConfusion h

/-- `parseBloomFilterBlock` inverts the writer's bloom-filter block. -/
theorem parseBloom_roundtrip (ob : Option Bytes) (R : Bytes) (hR : R ≠ [])
    (hlen : ∀ bb, ob = some bb → bb.length < 2 ^ 63) :
    parseBloomFilterBlock (bloomB ob ++ R) = .ok ob R := by
  cases ob with
  | none =>
    show parseBloomFilterBlock (0 :: R) = .ok none R
    unfold parseBloomFilterBlock
    rw [mustReadBytes_one 0 R]
    dsimp only [PRes.bind]
    rw [if_neg (by norm_num)]
  | some bb =>
    show parseBloomFilterBlock (1 :: ((putUintLE 8 bb.length ++ bb) ++ R)) = .ok (some bb) R
    rw [List.append_assoc]
    unfold parseBloomFilterBlock
    rw [mustReadBytes_one 1 _]
    dsimp only [PRes.bind]
    rw [if_pos (by simp : ([1] : List Nat).headD 0 = 1)]
    rw [mustReadBytes_exact_n (putUintLE 8 bb.length) _ 8 (length_putUintLE 8 _)
      (.inl (putUintLE_ne_nil 8 _ (by norm_num)))]
    dsimp only [PRes.bind]
    rw [leVal_putUintLE 8 _ (lt_trans (hlen bb rfl) (by norm_num))]
    rw [if_neg (Nat.not_le.mpr (hlen bb rfl))]
    rw [mustReadBytes_exact_n bb R bb.length rfl (.inr hR)]

/-- `parseBlockIndex` inverts the writer's block-index serialization. -/
theorem parseBlockIndex_roundtrip (l : List blockStat)
    (hne : l ≠ []) (hcnt : l.length < 2 ^ 63)
    (hstats : ∀ st ∈ l, statBounds st)
    (hasc : (l.map blockStat.firstKey).Pairwise bytesLTr) :
    parseBlockIndex (0 :: (putUintLE 8 l.length ++ (l.map blockStat.toBytes).flatten)) =
      .inr (l.map statView, []) := by
  unfold parseBlockIndex
  rw [mustReadBytes_one 0 _]
  dsimp only [PRes.bind]
  rw [mustReadBytes_exact_n (putUintLE 8 l.length) _ 8 (length_putUintLE 8 _)
    (.inl (putUintLE_ne_nil 8 _ (by norm_num)))]
  dsimp only
  rw [leVal_putUintLE 8 _ (lt_trans hcnt (by norm_num)), goInt64_small l.length hcnt]
  rw [if_neg (fun hq => hne (List.length_eq_zero.mp (Int.natCast_eq_zero.mp hq)))]
  rw [Int.toNat_natCast]
  rw [parseStats_run l [] hstats]
  dsimp only
  rw [foldl_statInsert l [] (fun y hy => absurd hy (List.not_mem_nil y)) hasc]
  rw [List.nil_append]

/-- `BytesToMetadata` on the exact byte layout emitted by
`generateMetaBlock` reproduces the metadata. -/
theorem bytesToMetadata_layout (fk lk : Bytes) (ob : Option Bytes) (lz4 : Bool)
    (l : List blockStat)
    (hfk : fk.length < 2 ^ 16) (hlk : lk.length < 2 ^ 16)
    (hob : ∀ bb, ob = some bb → bb.length < 2 ^ 63)
    (hne : l ≠ []) (hcnt : l.length < 2 ^ 63)
    (hstats : ∀ st ∈ l, statBounds st)
    (hasc : (l.map blockStat.firstKey).Pairwise bytesLTr) :
    BytesToMetadata
      (putUintLE 2 fk.length ++ (fk ++ (putUintLE 2 lk.length ++ (lk ++
        (bloomB ob ++ ((if lz4 then [2] else [0]) ++
          (0 :: (putUintLE 8 l.length ++ (l.map blockStat.toBytes).flatten)))))))) =
      .ok ⟨ob, false, lz4, fk, lk, l.map statView⟩ := by
  unfold BytesToMetadata
  rw [mustReadBytes_exact_n (putUintLE 2 fk.length) _ 2 (length_putUintLE 2 _)
    (.inl (putUintLE_ne_nil 2 _ (by norm_num)))]
  dsimp only [PRes.bind]
  rw [leVal_putUintLE 2 _ (by simpa using hfk)]
  rw [mustReadBytes_exact_n fk _ fk.length rfl
    (.inr (append_ne_nil_left _ (putUintLE_ne_nil 2 _ (by norm_num))))]
  dsimp only [PRes.bind]
  rw [mustReadBytes_exact_n (putUintLE 2 lk.length) _ 2 (length_putUintLE 2 _)
    (.inl (putUintLE_ne_nil 2 _ (by norm_num)))]
  dsimp only [PRes.bind]
  rw [leVal_putUintLE 2 _ (by simpa using hlk)]
  rw [mustReadBytes_exact_n lk _ lk.length rfl
    (.inr (append_ne_nil_left _ (bloomB_ne_nil ob)))]
  dsimp only [PRes.bind]
  rw [parseBloom_roundtrip ob _
    (append_ne_nil_left _ (by cases lz4 <;> exact fun h => List.noConfusion h)) hob]
  dsimp only
  cases lz4 with
  | true =>
    rw [if_pos rfl]
    rw [mustReadBytes_exact_n [2] _ 1 rfl (.inl (fun h => List.noConfusion h))]
    dsimp only
    rw [parseBlockIndex_roundtrip l hne hcnt hstats hasc]
    norm_num
  | false =>
    rw [if_neg (by simp)]
    rw [mustReadBytes_exact_n [0] _ 1 rfl (.inl (fun h => List.noConfusion h))]
    dsimp only
    rw [parseBlockIndex_roundtrip l hne hcnt hstats hasc]
    norm_num

/-- A `% 2^64` value is below `2^64`. -/
theorem mod64_lt (x : Nat) : x % 2 ^ 64 < 2 ^ 64 :=
  Nat.mod_lt _ (by norm_num)

/-- The xxhash64 avalanche output is a `uint64` value. -/
theorem avalanche_lt (h : Nat) : XXH64.avalanche h < 2 ^ 64 :=
  Nat.mod_lt _ (by norm_num [XXH64.M64])

/-- `xxhash.Sum64` returns a `uint64` value. -/
theorem sum64_lt (data : Bytes) : XXH64.sum64 data < 2 ^ 64 := by
  unfold XXH64.sum64
  exact avalanche_lt _

/-- `flushCurrentDataBlock` preserves the writer invariant: the new stat is
bounded and its first key extends the ascending block-index order. -/
theorem flush_winv (s s' : SegmentWriter) (h : flushCurrentDataBlock s = .ok s')
    (hinv : WInv s) (hact : s.blockWriterActive = true) :
    WInv s' ∧ s'.lastKey = s.lastKey ∧ s'.blockWriterActive = false ∧
    s'.options = s.options ∧ s'.closed = s.closed ∧
    s'.blockIndex.length = s.blockIndex.length + 1 := by
  obtain ⟨hb, hlk, hoff, hraw, hpw, hle, hactinv⟩ := hinv
  obtain ⟨hsk, hskle, hskgt⟩ := hactinv hact
  unfold flushCurrentDataBlock at h
  split at h
  · exact absurd h (by simp)
  split at h
  · exact absurd h (by simp)
  dsimp only at h
  injection h with h2
  subst h2
  refine ⟨?_, rfl, rfl, rfl, rfl, by simp⟩
  unfold WInv statBounds
  dsimp only
  refine ⟨?_, hlk, mod64_lt _, hraw, ?_, ?_, ?_⟩
  · intro st hst
    rcases List.mem_append.mp hst with hold | hnew
    · exact hb st hold
    · rcases List.mem_singleton.mp hnew with rfl
      dsimp only
      refine ⟨hsk, hoff, mod64_lt _, hraw, ?_, sum64_lt _⟩
      split
      · exact mod64_lt _
      · norm_num
  · rw [List.map_append]
    refine List.pairwise_append.mpr ⟨hpw, by simp, ?_⟩
    intro a ha b hb2
    rcases List.mem_map.mp ha with ⟨st, hst, rfl⟩
    rcases List.mem_map.mp hb2 with ⟨st2, hst2, rfl⟩
    rcases List.mem_singleton.mp hst2 with rfl
    exact hskgt st hst
  · intro st hst
    rcases List.mem_append.mp hst with hold | hnew
    · exact hle st hold
    · rcases List.mem_singleton.mp hnew with rfl
      exact hskle
  · intro hcon
    exact absurd hcon Bool.false_ne_true

/-- `WriteRow` of a key above `lastKey` preserves the writer invariant and
adds at most one block. -/
theorem writeRow_winv (s s' : SegmentWriter) (key val : Bytes)
    (h : WriteRow s key val = .ok s') (hinv : WInv s)
    (hkey : bLT s.lastKey key = true ∨ (s.blockIndex = [] ∧ s.blockWriterActive = false)) :
    WInv s' ∧ s'.lastKey = key ∧ s'.options = s.options ∧ s'.closed = s.closed ∧
    s.options.ZSTDCompressionLevel = 0 ∧
    s'.blockIndex.length + cond s'.blockWriterActive 1 0 ≤
      s.blockIndex.length + cond s.blockWriterActive 1 0 + 1 := by
  obtain ⟨hb, hlk, hoff, hraw, hpw, hle, hactinv⟩ := hinv
  unfold WriteRow at h
  split at h
  · exact absurd h (by simp)
  split at h
  · exact absurd h (by simp)
  split at h
  · exact absurd h (by simp)
  split at h
  · exact absurd h (by simp)
  rename_i hklen hvlen hclosed hzstd
  have hkl16 : key.length < 2 ^ 16 := by
    have h1 : key.length ≤ 65535 := by omega
    have h2 : (2 : Nat) ^ 16 = 65536 := by norm_num
    omega
  have hz0 : s.options.ZSTDCompressionLevel = 0 := by omega
  cases hact : s.blockWriterActive with
  | false =>
    rw [hact] at h
    have h' : (if (encodeRecord key val).length ≥ s.options.DataBlockThresholdBytes then
        flushCurrentDataBlock { s with
          currentBlockStartKey := key,
          currentRawBlockSize := (0 + (encodeRecord key val).length) % 2 ^ 64,
          blockBuffer := encodeRecord key val, blockWriterActive := true, lastKey := key }
      else Except.ok { s with
          currentBlockStartKey := key,
          currentRawBlockSize := (0 + (encodeRecord key val).length) % 2 ^ 64,
          blockBuffer := encodeRecord key val, blockWriterActive := true, lastKey := key }) =
        Except.ok s' := h
    have hinv2 : WInv { s with
        currentBlockStartKey := key,
        currentRawBlockSize := (0 + (encodeRecord key val).length) % 2 ^ 64,
        blockBuffer := encodeRecord key val, blockWriterActive := true, lastKey := key } := by
      unfold WInv
      dsimp only
      refine ⟨hb, hkl16, hoff, mod64_lt _, hpw, ?_, fun _ => ⟨hkl16, bLE_iff.mpr (.inr rfl), ?_⟩⟩
      · intro st hst
        rcases hkey with hlt | ⟨hbi, _⟩
        · exact bLE_iff.mpr (.inl (bLE_bLT_trans (hle st hst) hlt))
        · rw [hbi] at hst
          exact absurd hst (List.not_mem_nil st)
      · intro st hst
        rcases hkey with hlt | ⟨hbi, _⟩
        · exact bLE_bLT_trans (hle st hst) hlt
        · rw [hbi] at hst
          exact absurd hst (List.not_mem_nil st)
    split at h'
    · obtain ⟨hw1, hw2, hw3, hw4, hw5, hw6⟩ := flush_winv _ s' h' hinv2 rfl
      refine ⟨hw1, hw2, hw4, hw5, hz0, ?_⟩
      rw [hw6, hw3]
      show s.blockIndex.length + 1 + 0 ≤ s.blockIndex.length + 0 + 1
      omega
    · injection h' with h2
      subst h2
      refine ⟨hinv2, rfl, rfl, rfl, hz0, ?_⟩
      show s.blockIndex.length + 1 ≤ s.blockIndex.length + 0 + 1
      omega
  | true =>
    rw [hact] at h
    obtain ⟨hsk, hskle, hskgt⟩ := hactinv hact
    have hlt : bLT s.lastKey key = true := by
      rcases hkey with hlt | ⟨_, hcf⟩
      · exact hlt
      · rw [hact] at hcf
        exact Bool.noConfusion hcf
    have h' : (if (s.blockBuffer ++ encodeRecord key val).length ≥
          s.options.DataBlockThresholdBytes then
        flushCurrentDataBlock { s with
          lastKey := key, blockBuffer := s.blockBuffer ++ encodeRecord key val,
          currentRawBlockSize := (s.currentRawBlockSize + (encodeRecord key val).length) % 2 ^ 64 }
      else Except.ok { s with
          lastKey := key, blockBuffer := s.blockBuffer ++ encodeRecord key val,
          currentRawBlockSize :=
            (s.currentRawBlockSize + (encodeRecord key val).length) % 2 ^ 64 }) =
        Except.ok s' := h
    have hinv2 : WInv { s with
        lastKey := key, blockBuffer := s.blockBuffer ++ encodeRecord key val,
        currentRawBlockSize := (s.currentRawBlockSize + (encodeRecord key val).length) % 2 ^ 64 } := by
      unfold WInv
      dsimp only
      refine ⟨hb, hkl16, hoff, mod64_lt _, hpw, ?_, fun _ => ⟨hsk, ?_, hskgt⟩⟩
      · intro st hst
        exact bLE_iff.mpr (.inl (bLE_bLT_trans (hle st hst) hlt))
      · exact bLE_iff.mpr (.inl (bLE_bLT_trans hskle hlt))
    split at h'
    · obtain ⟨hw1, hw2, hw3, hw4, hw5, hw6⟩ := flush_winv _ s' h' hinv2 hact
      refine ⟨hw1, hw2, hw4, hw5, hz0, ?_⟩
      rw [hw6, hw3]
      show s.blockIndex.length + 1 + 0 ≤ s.blockIndex.length + 1 + 1
      omega
    · injection h' with h2
      subst h2
      refine ⟨hinv2, rfl, rfl, rfl, hz0, ?_⟩
      show s.blockIndex.length + cond s.blockWriterActive 1 0 ≤ s.blockIndex.length + 1 + 1
      rw [hact]
      show s.blockIndex.length + 1 ≤ s.blockIndex.length + 1 + 1
      omega

/-- A strictly increasing `WriteRow` sequence from any invariant state keeps
the invariant; the block count grows by at most the number of rows. -/
theorem writeAll_winv : ∀ (rows : List (Bytes × Bytes)) (s s' : SegmentWriter),
    writeAll s rows = .ok s' → WInv s →
    (∀ r ∈ rows.head?, bLT s.lastKey r.1 = true ∨
      (s.blockIndex = [] ∧ s.blockWriterActive = false)) →
    List.Chain' (fun a b : Bytes × Bytes => bLT a.1 b.1 = true) rows →
    WInv s' ∧ s'.options = s.options ∧ s'.closed = s.closed ∧
    (rows ≠ [] → s.options.ZSTDCompressionLevel = 0) ∧
    s'.blockIndex.length + cond s'.blockWriterActive 1 0 ≤
      s.blockIndex.length + cond s.blockWriterActive 1 0 + rows.length
  | [], s, s', h, hinv, _, _ => by
    injection h with h2
    subst h2
    exact ⟨hinv, rfl, rfl, fun hq => absurd rfl hq, by simp⟩
  | r :: rest, s, s', h, hinv, hhead, hchain => by
    unfold writeAll at h
    cases hw : WriteRow s r.1 r.2 with
    | error e =>
      rw [hw] at h
      exact absurd h (by simp)
    | ok s1 =>
      rw [hw] at h
      obtain ⟨hinv1, hlast1, hopts1, hclosed1, hz1, hcount1⟩ :=
        writeRow_winv s s1 r.1 r.2 hw hinv (hhead r rfl)
      have hcc := List.chain'_cons'.mp hchain
      obtain ⟨hinv2, hopts2, hclosed2, _, hcount2⟩ :=
        writeAll_winv rest s1 s' h hinv1
          (fun r2 hr2 => .inl (hlast1 ▸ hcc.1 r2 hr2)) hcc.2
      refine ⟨hinv2, hopts2.trans hopts1, hclosed2.trans hclosed1, fun _ => hz1, ?_⟩
      calc s'.blockIndex.length + cond s'.blockWriterActive 1 0 ≤
          s1.blockIndex.length + cond s1.blockWriterActive 1 0 + rest.length := hcount2
        _ ≤ s.blockIndex.length + cond s.blockWriterActive 1 0 + 1 + rest.length := by omega
        _ = s.blockIndex.length + cond s.blockWriterActive 1 0 + (r :: rest).length := by
          simp [List.length_cons]
          omega

/-- `BytesToMetadata` inverts `generateMetaBlock` on any writer state
satisfying the invariant bounds. -/
theorem bytesToMetadata_generate (s : SegmentWriter)
    (hne : s.blockIndex ≠ [])
    (hcnt : s.blockIndex.length < 2 ^ 63)
    (hlk : s.lastKey.length < 2 ^ 16)
    (hstats : ∀ st ∈ s.blockIndex, statBounds st)
    (hasc : (s.blockIndex.map blockStat.firstKey).Pairwise bytesLTr)
    (hbloom : ∀ bb, s.options.BloomFilter = some bb → bb.length < 2 ^ 63)
    (hz : s.options.ZSTDCompressionLevel = 0) :
    BytesToMetadata (generateMetaBlock s) =
      .ok ⟨s.options.BloomFilter, false, s.options.LZ4Compression,
           (s.blockIndex.headD default).firstKey, s.lastKey,
           s.blockIndex.map statView⟩ := by
  have hmem : s.blockIndex.headD default ∈ s.blockIndex := by
    cases hbi : s.blockIndex with
    | nil => exact absurd hbi hne
    | cons a t => simp
  have hfk : (s.blockIndex.headD default).firstKey.length < 2 ^ 16 := (hstats _ hmem).1
  have hgen : generateMetaBlock s =
      putUintLE 2 (s.blockIndex.headD default).firstKey.length ++
        ((s.blockIndex.headD default).firstKey ++ (putUintLE 2 s.lastKey.length ++ (s.lastKey ++
        (bloomB s.options.BloomFilter ++
          ((if s.options.LZ4Compression then [2] else [0]) ++
          (0 :: (putUintLE 8 s.blockIndex.length ++
            (s.blockIndex.map blockStat.toBytes).flatten))))))) := by
    unfold generateMetaBlock bloomB
    rw [hz]
    simp [List.append_assoc, List.singleton_append]
  rw [hgen]
  exact bytesToMetadata_layout _ _ _ _ _ hfk hlk hbloom hne hcnt hstats hasc

/-- `Except` bind on a success. -/
theorem exceptBind_ok {ε α β : Type} (a : α) (f : α → Except ε β) :
    Bind.bind (Except.ok a) f = f a := rfl

/-- `Except` bind on an error. -/
theorem exceptBind_err {ε α β : Type} (e : ε) (f : α → Except ε β) :
    Bind.bind (Except.error e : Except ε α) f = Except.error e := rfl

/-- **C7**: for every sequence of strictly increasing rows written through a
segment writer, parsing the meta-block bytes returned by `Close` with
`BytesToMetadata` reproduces the writer's in-memory metadata exactly: the
same first key (of the first block stat), last key, compression flags,
bloom filter presence, and the same block-index entries (first key, offset,
final length, uncompressed length, compressed length, hash) in the same
order.  (Side conditions: fewer than `2^63` rows and a configured bloom
filter, if any, shorter than `2^63` bytes - otherwise Go `int` conversions
wrap.) -/
theorem meta_roundtrip (opts : SegmentWriterOptions) (rows : List (Bytes × Bytes))
    (s sF : SegmentWriter) (n : Nat) (meta : Bytes)
    (hchain : List.Chain' (fun a b : Bytes × Bytes => bLT a.1 b.1 = true) rows)
    (hrows : rows.length < 2 ^ 63)
    (hbloom : ∀ bb, opts.BloomFilter = some bb → bb.length < 2 ^ 63)
    (hw : writeAll (NewSegmentWriter opts) rows = .ok s)
    (hc : Close s = .ok (n, meta, sF)) :
    BytesToMetadata meta =
      .ok ⟨sF.options.BloomFilter, false, sF.options.LZ4Compression,
           (sF.blockIndex.headD default).firstKey, sF.lastKey,
           sF.blockIndex.map statView⟩ := by
  have hinv0 : WInv (NewSegmentWriter opts) := by
    unfold WInv NewSegmentWriter
    refine ⟨by simp, by norm_num, by norm_num, by norm_num, by simp, by simp, ?_⟩
    intro hcon
    exact absurd hcon Bool.false_ne_true
  obtain ⟨hinvS, hoptsS, _, hzS, hcountS⟩ :=
    writeAll_winv rows _ s hw hinv0 (fun r _ => .inr ⟨rfl, rfl⟩) hchain
  have hsopts : s.options = opts := hoptsS
  have hcountS' : s.blockIndex.length + cond s.blockWriterActive 1 0 ≤ rows.length := by
    have h0 : s.blockIndex.length + cond s.blockWriterActive 1 0 ≤ 0 + 0 + rows.length :=
      hcountS
    omega
  unfold Close at hc
  split at hc
  · rename_i hact
    cases hfl : flushCurrentDataBlock s with
    | error e =>
      rw [hfl, exceptBind_err] at hc
      exact absurd hc (by simp)
    | ok s0 =>
      rw [hfl, exceptBind_ok] at hc
      dsimp only at hc
      obtain ⟨hW0, hlk0eq, _, hopt0, _, hlen0⟩ := flush_winv s s0 hfl hinvS hact
      obtain ⟨hb0, hlk0, _, _, hpw0, _, _⟩ := hW0
      have hcnt' : s0.blockIndex.length ≤ rows.length := by
        rw [hact] at hcountS'
        have h1 : s.blockIndex.length + 1 ≤ rows.length := hcountS'
        omega
      split at hc
      · exact absurd hc (by simp)
      · rename_i hbi
        injection hc with h3
        have hmeta : generateMetaBlock s0 = meta := congrArg (fun t => t.2.1) h3
        have hbiF : s0.blockIndex = sF.blockIndex := congrArg (fun t => t.2.2.blockIndex) h3
        have hlkF : s0.lastKey = sF.lastKey := congrArg (fun t => t.2.2.lastKey) h3
        have hoptF : s0.options = sF.options := congrArg (fun t => t.2.2.options) h3
        have hrne : rows ≠ [] := by
          intro hr
          rw [hr] at hcnt'
          exact hbi (List.length_eq_zero.mp (by simpa using hcnt'))
        have hz0 : s0.options.ZSTDCompressionLevel = 0 := by
          rw [hopt0, hsopts]
          exact hzS hrne
        have hbloom0 : ∀ bb, s0.options.BloomFilter = some bb → bb.length < 2 ^ 63 := by
          rw [hopt0, hsopts]
          exact hbloom
        rw [← hmeta, ← hbiF, ← hlkF, ← hoptF]
        exact bytesToMetadata_generate s0 hbi (lt_of_le_of_lt hcnt' hrows) hlk0 hb0 hpw0
          hbloom0 hz0
  · rename_i hnact
    rw [exceptBind_ok] at hc
    dsimp only at hc
    have hactF : s.blockWriterActive = false := by
      cases hq : s.blockWriterActive
      · rfl
      · exact absurd hq hnact
    obtain ⟨hb0, hlk0, _, _, hpw0, _, _⟩ := hinvS
    have hcnt' : s.blockIndex.length ≤ rows.length := by
      rw [hactF] at hcountS'
      have h1 : s.blockIndex.length + 0 ≤ rows.length := hcountS'
      omega
    split at hc
    · exact absurd hc (by simp)
    · rename_i hbi
      injection hc with h3
      have hmeta : generateMetaBlock s = meta := congrArg (fun t => t.2.1) h3
      have hbiF : s.blockIndex = sF.blockIndex := congrArg (fun t => t.2.2.blockIndex) h3
      have hlkF : s.lastKey = sF.lastKey := congrArg (fun t => t.2.2.lastKey) h3
      have hoptF : s.options = sF.options := congrArg (fun t => t.2.2.options) h3
      have hrne : rows ≠ [] := by
        intro hr
        rw [hr] at hcnt'
        exact hbi (List.length_eq_zero.mp (by simpa using hcnt'))
      have hz0 : s.options.ZSTDCompressionLevel = 0 := by
        rw [hsopts]
        exact hzS hrne
      have hbloom0 : ∀ bb, s.options.BloomFilter = some bb → bb.length < 2 ^ 63 := by
        rw [hsopts]
        exact hbloom
      rw [← hmeta, ← hbiF, ← hlkF, ← hoptF]
      exact bytesToMetadata_generate s hbi (lt_of_le_of_lt hcnt' hrows) hlk0 hb0 hpw0
        hbloom0 hz0

set_option maxRecDepth 1000000 in
/-- C7 witness: the two-row run under `cOpts` satisfies every hypothesis
and its meta block parses back to the writer's metadata. -/
theorem meta_roundtrip_witness :
    List.Chain' (fun a b : Bytes × Bytes => bLT a.1 b.1 = true) c7rows ∧
    c7rows.length < 2 ^ 63 ∧
    (∀ bb, cOpts.BloomFilter = some bb → bb.length < 2 ^ 63) ∧
    writeAll (NewSegmentWriter cOpts) c7rows = .ok c7mid ∧
    Close c7mid = .ok (c7len, c7meta, c7state) ∧
    BytesToMetadata c7meta =
      .ok ⟨c7state.options.BloomFilter, false, c7state.options.LZ4Compression,
           (c7state.blockIndex.headD default).firstKey, c7state.lastKey,
           c7state.blockIndex.map statView⟩ := by
  have hch : List.Chain' (fun a b : Bytes × Bytes => bLT a.1 b.1 = true) c7rows :=
    List.Chain.cons (by decide) List.Chain.nil
  have hrlen : c7rows.length < 2 ^ 63 := by norm_num [c7rows]
  have hbl : ∀ bb, cOpts.BloomFilter = some bb → bb.length < 2 ^ 63 := fun bb h => nomatch h
  have hw : writeAll (NewSegmentWriter cOpts) c7rows = .ok c7mid := rfl
  have hc : Close c7mid = .ok (c7len, c7meta, c7state) := rfl
  exact ⟨hch, hrlen, hbl, hw, hc,
    meta_roundtrip cOpts c7rows c7mid c7state c7len c7meta hch hrlen hbl hw hc⟩

/-- C10 witness: the zero-count meta block hits the `InvalidMetaBlock` path,
and the implication of the claim theorem instantiates on it. -/
theorem bytesToMetadata_partiality_witness :
    BytesToMetadata c10zeroCount = .invalidMetaBlock ∧
    ∃ rem cnt rest, parseBlockIndex rem = .inl .invalidMetaBlock ∧
      (mustReadBytes rem 1).bind (fun _ r => mustReadBytes r 8) = .ok cnt rest ∧
      goInt64OfUint64 (leVal cnt) = 0 :=
  ⟨by decide, bytesToMetadata_partiality.2.2.2 c10zeroCount (by decide)⟩

end ObjectKV
